import Mathlib

/-!
# Ohmimetro: E24 matching and colour-band decomposition

A shallow embedding of `Ohmimetro01.c` (the measurement loop of `main`,
`find_closest_e24`, `determine_bands` and the two colour-table lookups) together
with the properties of the measurement-to-classification pipeline.

Modelling conventions.

* A C `float`/`double` value is a `CFloat`: a finite value, carried as the
  rational number it denotes, or one of the IEEE specials `+inf`, `-inf`, `NaN`.
  Every floating operation computes the exact result and then rounds it to the
  format of the C expression (`round32` for `float`, `round64` for `double`):
  round to nearest, ties to even, with gradual underflow and overflow to an
  infinity.  The only zero is `+0`, which is the sign of every zero divisor
  this program can produce.
* `log10` and `pow` come from the C library; they are taken at their
  mathematical values.
* A C `int` is an `Int`; an operation whose C behaviour is undefined (conversion
  of a non-finite or out-of-range floating value to `int`, signed overflow,
  division by zero, an out-of-bounds table read) yields `none`.
-/

namespace Ohmimetro

/-! ## Rounding -/

/-- Nearest integer, ties to the even one. -/
def round_even (x : ℚ) : Int :=
  if x - ⌊x⌋ < 1 / 2 then ⌊x⌋
  else if 1 / 2 < x - ⌊x⌋ then ⌊x⌋ + 1
  else if ⌊x⌋ % 2 = 0 then ⌊x⌋ else ⌊x⌋ + 1

/-- Exponent of the binade of `q`, not below `emin`: `⌊log2 |q|⌋` for a normal
`q`, and `emin` in the subnormal range. -/
def fl_exp (emin : Int) (q : ℚ) : Int := max (Int.log 2 |q|) emin

/-- Rounding of `q` to the nearest number with `t` fraction bits and exponent at
least `emin` (below `2 ^ emin` the spacing stays `2 ^ (emin - t)`), ties to
even.  The exponent is not bounded above here. -/
def fl (t : ℕ) (emin : Int) (q : ℚ) : ℚ :=
  (round_even (q / (2 : ℚ) ^ (fl_exp emin q - t)) : ℚ) * (2 : ℚ) ^ (fl_exp emin q - t)

/-- Rounding to binary32 (`float`), exponent unbounded above. -/
def fl32 (q : ℚ) : ℚ := fl 23 (-126) q

/-- Rounding to binary64 (`double`), exponent unbounded above. -/
def fl64 (q : ℚ) : ℚ := fl 52 (-1022) q

/-! ## Floating values -/

/-- Value of a C floating expression: a finite value or an IEEE special. -/
inductive CFloat where
  | fin (q : ℚ)
  | pinf
  | ninf
  | nan
  deriving DecidableEq

namespace CFloat

/-- Exact difference `a - b`, before rounding. -/
def sub : CFloat → CFloat → CFloat
  | fin a, fin b => fin (a - b)
  | fin _, pinf => ninf
  | fin _, ninf => pinf
  | pinf, fin _ => pinf
  | pinf, ninf => pinf
  | ninf, fin _ => ninf
  | ninf, pinf => ninf
  | _, _ => nan

/-- Exact product `a * b`, before rounding. -/
def mul : CFloat → CFloat → CFloat
  | fin a, fin b => fin (a * b)
  | fin a, pinf => if a = 0 then nan else if 0 < a then pinf else ninf
  | fin a, ninf => if a = 0 then nan else if 0 < a then ninf else pinf
  | pinf, fin b => if b = 0 then nan else if 0 < b then pinf else ninf
  | ninf, fin b => if b = 0 then nan else if 0 < b then ninf else pinf
  | pinf, pinf => pinf
  | pinf, ninf => ninf
  | ninf, pinf => ninf
  | ninf, ninf => pinf
  | _, _ => nan

/-- C `fabs` (exact). -/
def fabs : CFloat → CFloat
  | fin a => fin |a|
  | pinf => pinf
  | ninf => pinf
  | nan => nan

/-- C comparison `a < b`; false as soon as one side is `NaN`. -/
def lt : CFloat → CFloat → Bool
  | fin a, fin b => decide (a < b)
  | fin _, pinf => true
  | ninf, fin _ => true
  | ninf, pinf => true
  | _, _ => false

/-- Exact quotient `a / b`, before rounding; a zero divisor is `+0`. -/
def div : CFloat → CFloat → CFloat
  | fin a, fin b =>
    if b = 0 then (if a = 0 then nan else if 0 < a then pinf else ninf) else fin (a / b)
  | fin _, pinf => fin 0
  | fin _, ninf => fin 0
  | pinf, fin b => if 0 ≤ b then pinf else ninf
  | ninf, fin b => if 0 ≤ b then ninf else pinf
  | _, _ => nan

/-- Rounding of an exact result to a format with `t` fraction bits and exponents
in `[emin, emax]`: a finite result whose rounding reaches `2 ^ (emax + 1)`
becomes an infinity. -/
def round (t : ℕ) (emin emax : Int) : CFloat → CFloat
  | fin q =>
    if (2 : ℚ) ^ (emax + 1) ≤ |fl t emin q| then (if 0 < q then pinf else ninf)
    else fin (fl t emin q)
  | pinf => pinf
  | ninf => ninf
  | nan => nan

/-- Rounding to `float`. -/
def round32 (x : CFloat) : CFloat := round 23 (-126) 127 x

/-- Rounding to `double`. -/
def round64 (x : CFloat) : CFloat := round 52 (-1022) 1023 x

end CFloat

/-! ## Integer helpers -/

/-- Largest value of a 32-bit C `int`. -/
def INT_MAX : Int := 2147483647

/-- Smallest value of a 32-bit C `int`. -/
def INT_MIN : Int := -2147483648

/-- The C expression `(int)log10(x)`: `log10` followed by truncation toward zero.
For a finite `x ≥ 1` this is `⌊log10 x⌋`; for `0 < x < 1` the logarithm is
negative and truncation gives `-⌊log10 (1/x)⌋`.  `log10` of zero, of a negative
number, of an infinity or of `NaN` is not finite and its conversion to `int` is
undefined. -/
def int_log10 : CFloat → Option Int
  | CFloat.fin q =>
    if 0 < q then
      some (if 1 ≤ q then (Nat.log 10 ⌊q⌋₊ : Int) else -(Nat.log 10 ⌊1 / q⌋₊ : Int))
    else none
  | _ => none

/-- The C expression `(int)pow(10, n)` for an `int` exponent `n`: a negative
exponent gives a power in `(0, 1)`, truncated to `0`; a power above `INT_MAX`
does not fit an `int` and the conversion is undefined. -/
def int_pow10 (n : Int) : Option Int :=
  if n < 0 then some 0
  else if (10 : Int) ^ n.toNat ≤ INT_MAX then some ((10 : Int) ^ n.toNat) else none

/-- C `int` multiplication; signed overflow is undefined. -/
def int_mul (a b : Int) : Option Int :=
  if INT_MIN ≤ a * b ∧ a * b ≤ INT_MAX then some (a * b) else none

/-- C `int` division (truncating); division by zero is undefined. -/
def int_div (a b : Int) : Option Int :=
  if b = 0 then none else some (Int.tdiv a b)

/-- Conversion of an `int` to `float`. -/
def int_to_float (i : Int) : CFloat := CFloat.round32 (CFloat.fin i)

/-! ## Constant tables and globals -/

/-- Values of the E24 series (5% tolerance). -/
def e24_series : List Int :=
  [100, 110, 120, 130, 150, 160, 180, 200, 220, 240, 270, 300,
   330, 360, 390, 430, 470, 510, 560, 620, 680, 750, 820, 910]

/-- RGB triples of the twelve band colours. -/
def resistor_colors : List (Nat × Nat × Nat) :=
  [(0, 0, 0), (37, 18, 0), (63, 0, 0), (63, 17, 0), (63, 63, 0), (0, 63, 0),
   (0, 0, 63), (32, 0, 32), (32, 32, 32), (63, 63, 63), (53, 43, 13), (48, 48, 48)]

/-- Names of the twelve band colours (local table of `display_resistor_bands`). -/
def color_names : List String :=
  ["Preto", "Marrom", "Vermelho", "Laranja", "Amarelo",
   "Verde", "Azul", "Violeta", "Cinza", "Branco",
   "Dourado", "Prateado"]

/-- Known resistor of the divider, in ohms. -/
def R_conhecido : Int := 10000

/-- ADC resolution (12 bits). -/
def ADC_RESOLUTION : Int := 4095

/-- Bands of a resistor. -/
structure ResistorBands where
  digit1 : Int
  digit2 : Int
  multiplier : Int
  deriving DecidableEq

/-! ## `find_closest_e24` -/

/-- The C expression `fabs(normalized - (e / 100.0))` stored in a `float`: the
quotient and the difference are `double` operations (an `int` converts to
`double` exactly), and the store rounds the result to `float`. -/
def float_diff (normalized : CFloat) (e : Int) : CFloat :=
  CFloat.round32 (CFloat.fabs (CFloat.round64 (CFloat.sub normalized
    (CFloat.round64 (CFloat.div (CFloat.fin e) (CFloat.fin 100))))))

/-- One iteration of the search loop on the entry `e`: the state is
`(closest, min_diff)`. -/
def scan_step (normalized : CFloat) (st : Int × CFloat) (e : Int) : Int × CFloat :=
  let diff := float_diff normalized e
  if CFloat.lt diff st.2 then (e, diff) else st

/-- Closest E24 value: `decade` from `(int)pow(10, (int)log10(measured))`,
`normalized` from the `float` division by `decade`, the loop over
`e24_series[1..23]` started from entry `0`, and the final
`closest * (decade / 100)` in `int` arithmetic. -/
def find_closest_e24 (measured : CFloat) : Option Int :=
  (int_log10 measured).bind fun l =>
  (int_pow10 l).bind fun decade =>
    let normalized := CFloat.round32 (CFloat.div measured (int_to_float decade))
    let closest := e24_series.get ⟨0, by decide⟩
    let min_diff := float_diff normalized closest
    let st := (e24_series.drop 1).foldl (scan_step normalized) (closest, min_diff)
    int_mul st.1 (Int.tdiv decade 100)

/-! ## `determine_bands` -/

/-- Bands of a nominal value, by magnitude. -/
def determine_bands (value : Int) : Option ResistorBands :=
  if value < 10 then
    some ⟨0, value, 0⟩
  else if value < 100 then
    some ⟨Int.tdiv value 10, Int.tmod value 10, 1⟩
  else
    (int_log10 (CFloat.fin value)).bind fun l =>
    (int_pow10 (l - 1)).bind fun decade =>
    (int_div value decade).bind fun q =>
      some ⟨Int.tdiv q 10, Int.tmod q 10, l - 1⟩

/-! ## Colour-table lookups -/

/-- Read of a C array at an `int` index; outside the array it is undefined. -/
def table_get {α : Type} (t : List α) (i : Int) : Option α :=
  if 0 ≤ i then t.get? i.toNat else none

/-- The three texts drawn by `display_resistor_bands`. -/
def display_resistor_bands (bands : ResistorBands) : Option (String × String × String) :=
  (table_get color_names bands.digit1).bind fun c1 =>
  (table_get color_names bands.digit2).bind fun c2 =>
  (table_get color_names bands.multiplier).bind fun c3 =>
    some ("1a: " ++ c1, "2a: " ++ c2, "Mult: " ++ c3)

/-- The three colours sent to the LEDs by `show_bands_on_leds`, in call order. -/
def show_bands_on_leds (bands : ResistorBands) :
    Option ((Nat × Nat × Nat) × (Nat × Nat × Nat) × (Nat × Nat × Nat)) :=
  (table_get resistor_colors bands.digit1).bind fun c1 =>
  (table_get resistor_colors bands.digit2).bind fun c2 =>
  (table_get resistor_colors bands.multiplier).bind fun c3 =>
    some (c1, c2, c3)

/-! ## The measurement cycle of `main` -/

/-- What one pass of the `while (true)` body computes from the averaged reading
`media`: the estimate `R_x`, the value returned by `find_closest_e24(R_x)` and
the bands returned by `determine_bands(e24_value)`. -/
structure Cycle where
  R_x : CFloat
  e24_value : Option Int
  bands : Option ResistorBands

/-- One measurement cycle after averaging; `media` is the value held by the
`float` variable `media`.  `R_x` is the `float` quotient of the `float` product
`R_conhecido * media` by the `float` difference `ADC_RESOLUTION - media`. -/
def measurement_cycle (media : ℚ) : Cycle :=
  let R_x := CFloat.round32 (CFloat.div
    (CFloat.round32 (CFloat.mul (int_to_float R_conhecido) (CFloat.fin media)))
    (CFloat.round32 (CFloat.sub (int_to_float ADC_RESOLUTION) (CFloat.fin media))))
  let e24_value := find_closest_e24 R_x
  let bands := e24_value.bind determine_bands
  ⟨R_x, e24_value, bands⟩

/-! ## Quantities used in the statements -/

/-- Value of `float_diff` on finite arguments when nothing overflows: the
difference between the mantissa `n` and the entry `e` as the code computes it. -/
def e24_diff (n : ℚ) (e : Int) : ℚ := fl32 |fl64 (n - fl64 ((e : ℚ) / 100))|

/-! ## Rounding to the nearest integer -/

theorem round_even_intCast (n : Int) : round_even (n : ℚ) = n := by
  simp [round_even]

theorem round_even_cases (x : ℚ) : round_even x = ⌊x⌋ ∨ round_even x = ⌊x⌋ + 1 := by
  unfold round_even
  split_ifs <;> simp

theorem round_even_mono {x y : ℚ} (h : x ≤ y) : round_even x ≤ round_even y := by
  have hf : ⌊x⌋ ≤ ⌊y⌋ := Int.floor_mono h
  rcases lt_or_eq_of_le hf with hlt | heq
  · rcases round_even_cases x with hx | hx <;> rcases round_even_cases y with hy | hy <;> omega
  · simp only [round_even, heq]
    split_ifs <;> first | omega | (exfalso; linarith)

theorem round_even_of_close (x : ℚ) (N : Int) (h : |x - N| < 1 / 2) : round_even x = N := by
  rw [abs_lt] at h
  obtain ⟨h1, h2⟩ := h
  rcases le_or_lt (N : ℚ) x with hle | hlt
  · have hfl : ⌊x⌋ = N := by
      rw [Int.floor_eq_iff]
      constructor <;> linarith
    simp only [round_even, hfl]
    rw [if_pos (by linarith)]
  · have hfl : ⌊x⌋ = N - 1 := by
      rw [Int.floor_eq_iff]
      push_cast
      constructor <;> linarith
    simp only [round_even, hfl]
    push_cast
    rw [if_neg (by linarith), if_pos (by linarith)]
    ring

theorem round_even_neg (x : ℚ) : round_even (-x) = -round_even x := by
  by_cases hx : ((⌊x⌋ : Int) : ℚ) = x
  · rw [← hx, ← Int.cast_neg, round_even_intCast, round_even_intCast]
  · have h1 : ((⌊x⌋ : Int) : ℚ) < x := lt_of_le_of_ne (Int.floor_le x) hx
    have h2 : x < ((⌊x⌋ : Int) : ℚ) + 1 := Int.lt_floor_add_one x
    have hfl : ⌊-x⌋ = -⌊x⌋ - 1 := by
      rw [Int.floor_eq_iff]
      push_cast
      constructor <;> linarith
    simp only [round_even, hfl]
    push_cast
    split_ifs <;> first | omega | (exfalso; linarith)

/-! ## Rounding to a floating format -/

theorem two_zpow_pos (z : Int) : (0 : ℚ) < (2 : ℚ) ^ z := by positivity

theorem zpow_split (E : Int) (t : ℕ) :
    (2 : ℚ) ^ E = (((2 : Int) ^ t : Int) : ℚ) * (2 : ℚ) ^ (E - t) := by
  push_cast
  rw [← zpow_natCast, ← zpow_add₀ (two_ne_zero)]
  congr 1
  ring

theorem fl_exp_neg (emin : Int) (q : ℚ) : fl_exp emin (-q) = fl_exp emin q := by
  simp [fl_exp]

theorem fl_neg (t : ℕ) (emin : Int) (q : ℚ) : fl t emin (-q) = -fl t emin q := by
  simp only [fl, fl_exp_neg, neg_div, round_even_neg]
  push_cast
  ring

theorem fl_zero (t : ℕ) (emin : Int) : fl t emin 0 = 0 := by
  have h : round_even (0 : ℚ) = 0 := round_even_intCast 0
  simp [fl, h]

theorem emin_le_fl_exp (emin : Int) (q : ℚ) : emin ≤ fl_exp emin q := le_max_right _ _

theorem lt_zpow_fl_exp (emin : Int) {q : ℚ} (hq : 0 < q) :
    q < (2 : ℚ) ^ (fl_exp emin q + 1) := by
  have h1 : q < ((2 : ℕ) : ℚ) ^ (Int.log 2 q + 1) := Int.lt_zpow_succ_log_self (by norm_num) q
  have h2 : ((2 : ℕ) : ℚ) ^ (Int.log 2 q + 1) ≤ ((2 : ℕ) : ℚ) ^ (fl_exp emin q + 1) := by
    apply zpow_le_zpow_right₀ (by norm_num)
    rw [fl_exp, abs_of_pos hq]
    have := le_max_left (Int.log 2 q) emin
    omega
  have h3 := lt_of_lt_of_le h1 h2
  simpa using h3

theorem zpow_fl_exp_le (emin : Int) {q : ℚ} (hq : 0 < q) (h : emin < fl_exp emin q) :
    (2 : ℚ) ^ fl_exp emin q ≤ q := by
  have hE : fl_exp emin q = Int.log 2 q := by
    rw [fl_exp, abs_of_pos hq] at h ⊢
    rcases max_cases (Int.log 2 q) emin with ⟨h1, -⟩ | ⟨h1, -⟩
    · exact h1
    · rw [h1] at h; exact absurd h (lt_irrefl _)
  rw [hE]
  have := Int.zpow_log_le_self (b := 2) (r := q) (by norm_num) hq
  simpa using this

theorem fl_exp_mono (emin : Int) {x y : ℚ} (hx : 0 < x) (h : x ≤ y) :
    fl_exp emin x ≤ fl_exp emin y := by
  rw [fl_exp, fl_exp, abs_of_pos hx, abs_of_pos (lt_of_lt_of_le hx h)]
  exact max_le_max (Int.log_mono_right hx h) le_rfl

theorem fl_nonneg (t : ℕ) (emin : Int) {q : ℚ} (hq : 0 ≤ q) : 0 ≤ fl t emin q := by
  unfold fl
  apply mul_nonneg _ (two_zpow_pos _).le
  have h0 : (0 : ℚ) ≤ q / (2 : ℚ) ^ (fl_exp emin q - t) := div_nonneg hq (two_zpow_pos _).le
  have := round_even_mono h0
  rw [show (0 : ℚ) = ((0 : Int) : ℚ) by simp, round_even_intCast] at this
  exact_mod_cast this

theorem fl_le_zpow (t : ℕ) (emin : Int) {q : ℚ} (hq : 0 < q) :
    fl t emin q ≤ (2 : ℚ) ^ (fl_exp emin q + 1) := by
  have hu := two_zpow_pos (fl_exp emin q + 1 - t)
  have hlt := lt_zpow_fl_exp emin hq
  rw [zpow_split (fl_exp emin q + 1) (t + 1)] at hlt ⊢
  have he : fl_exp emin q + 1 - ((t + 1 : ℕ) : Int) = fl_exp emin q - t := by
    push_cast; ring
  rw [he] at hlt ⊢
  have hu' := two_zpow_pos (fl_exp emin q - t)
  have h1 : q / (2 : ℚ) ^ (fl_exp emin q - t) ≤ (((2 : Int) ^ (t + 1) : Int) : ℚ) := by
    rw [div_le_iff₀ hu']; exact hlt.le
  have h2 := round_even_mono h1
  rw [round_even_intCast] at h2
  unfold fl
  exact mul_le_mul_of_nonneg_right (by exact_mod_cast h2) hu'.le

theorem zpow_le_fl (t : ℕ) (emin : Int) {q : ℚ} (hq : 0 < q) (h : emin < fl_exp emin q) :
    (2 : ℚ) ^ fl_exp emin q ≤ fl t emin q := by
  have hle := zpow_fl_exp_le emin hq h
  rw [zpow_split (fl_exp emin q) t] at hle ⊢
  have hu' := two_zpow_pos (fl_exp emin q - t)
  have h1 : (((2 : Int) ^ t : Int) : ℚ) ≤ q / (2 : ℚ) ^ (fl_exp emin q - t) := by
    rw [le_div_iff₀ hu']; exact hle
  have h2 := round_even_mono h1
  rw [round_even_intCast] at h2
  unfold fl
  exact mul_le_mul_of_nonneg_right (by exact_mod_cast h2) hu'.le

theorem fl_mono_pos (t : ℕ) (emin : Int) {x y : ℚ} (hx : 0 < x) (h : x ≤ y) :
    fl t emin x ≤ fl t emin y := by
  have hy : 0 < y := lt_of_lt_of_le hx h
  rcases lt_or_eq_of_le (fl_exp_mono emin hx h) with hlt | heq
  · have h1 := fl_le_zpow t emin hx
    have h2 := zpow_le_fl t emin hy (lt_of_le_of_lt (emin_le_fl_exp emin x) hlt)
    have h3 : (2 : ℚ) ^ (fl_exp emin x + 1) ≤ (2 : ℚ) ^ fl_exp emin y :=
      zpow_le_zpow_right₀ (by norm_num) (by omega)
    linarith
  · unfold fl
    rw [heq]
    have hu := two_zpow_pos (fl_exp emin y - t)
    have h1 : x / (2 : ℚ) ^ (fl_exp emin y - t) ≤ y / (2 : ℚ) ^ (fl_exp emin y - t) :=
      div_le_div_of_nonneg_right h hu.le
    have h2 := round_even_mono h1
    exact mul_le_mul_of_nonneg_right (by exact_mod_cast h2) hu.le

theorem fl_mono (t : ℕ) (emin : Int) {x y : ℚ} (h : x ≤ y) : fl t emin x ≤ fl t emin y := by
  rcases lt_trichotomy 0 x with hx | hx | hx
  · exact fl_mono_pos t emin hx h
  · rw [← hx, fl_zero]
    exact fl_nonneg t emin (hx ▸ h)
  · rcases le_or_lt 0 y with hy | hy
    · have h1 : fl t emin x ≤ 0 := by
        have := fl_nonneg t emin (neg_nonneg.2 hx.le)
        rw [fl_neg] at this
        linarith
      exact le_trans h1 (fl_nonneg t emin hy)
    · have := fl_mono_pos t emin (neg_pos.2 hy) (neg_le_neg h)
      rw [fl_neg, fl_neg] at this
      linarith

theorem round_even_rep (N j u : Int) (h : u ≤ j) :
    (round_even ((N : ℚ) * (2 : ℚ) ^ j / (2 : ℚ) ^ u) : ℚ) * (2 : ℚ) ^ u
      = (N : ℚ) * (2 : ℚ) ^ j := by
  obtain ⟨m, rfl⟩ : ∃ m : ℕ, j = u + m := ⟨(j - u).toNat, by omega⟩
  have hu := two_zpow_pos u
  have hsplit : (2 : ℚ) ^ (u + (m : Int)) = (((2 : Int) ^ m : Int) : ℚ) * (2 : ℚ) ^ u := by
    rw [zpow_split (u + m) m]
    congr 2
    omega
  have hdiv : (N : ℚ) * (2 : ℚ) ^ (u + (m : Int)) / (2 : ℚ) ^ u = ((N * 2 ^ m : Int) : ℚ) := by
    rw [div_eq_iff hu.ne', hsplit]
    push_cast
    ring
  rw [hdiv, round_even_intCast, hsplit]
  push_cast
  ring

/-- A number `N * 2^j` with `|N| < 2^(t+1)` and `j` not below the least spacing
exponent is representable: rounding leaves it unchanged. -/
theorem fl_rep (t : ℕ) (emin : Int) (N j : Int) (hN : |N| < 2 ^ (t + 1))
    (hj : emin - t ≤ j) : fl t emin ((N : ℚ) * (2 : ℚ) ^ j) = (N : ℚ) * (2 : ℚ) ^ j := by
  by_cases hN0 : N = 0
  · simp [hN0, fl_zero]
  have hq : 0 < |(N : ℚ) * (2 : ℚ) ^ j| := by
    apply abs_pos.2
    exact mul_ne_zero (by exact_mod_cast hN0) (two_zpow_pos j).ne'
  have hlog : Int.log 2 |(N : ℚ) * (2 : ℚ) ^ j| < j + t + 1 := by
    rw [← Int.lt_zpow_iff_log_lt (by norm_num) hq]
    rw [abs_mul, abs_of_pos (two_zpow_pos j)]
    have h1 : |(N : ℚ)| < (2 : ℚ) ^ (t + 1) := by
      have : ((|N| : Int) : ℚ) < (((2 : Int) ^ (t + 1) : Int) : ℚ) := by exact_mod_cast hN
      simpa using this
    have h2 : (2 : ℚ) ^ (j + t + 1) = (2 : ℚ) ^ (t + 1) * (2 : ℚ) ^ j := by
      rw [← zpow_natCast, ← zpow_add₀ (two_ne_zero)]
      congr 1
      push_cast; ring
    push_cast
    rw [h2]
    exact mul_lt_mul_of_pos_right h1 (two_zpow_pos j)
  have hE : fl_exp emin ((N : ℚ) * (2 : ℚ) ^ j) - t ≤ j := by
    have : fl_exp emin ((N : ℚ) * (2 : ℚ) ^ j) ≤ j + t := by
      rw [fl_exp]
      apply max_le <;> omega
    omega
  unfold fl
  exact round_even_rep N j _ hE

/-- Evaluation of a rounding: `2^e ≤ |q| < 2^(e+1)` with `e ≥ emin` fixes the
spacing `2^(e-t)`, and `N` is the integer within `1/2` of `q / 2^(e-t)`. -/
theorem fl_eval (t : ℕ) (emin : Int) (q : ℚ) (e N : Int) (he : emin ≤ e)
    (h1 : (2 : ℚ) ^ e ≤ |q|) (h2 : |q| < (2 : ℚ) ^ (e + 1))
    (hN : |q / (2 : ℚ) ^ (e - t) - N| < 1 / 2) :
    fl t emin q = (N : ℚ) * (2 : ℚ) ^ (e - t) := by
  have hq : 0 < |q| := lt_of_lt_of_le (two_zpow_pos e) h1
  have hlog : Int.log 2 |q| = e := by
    apply le_antisymm
    · have : Int.log 2 |q| < e + 1 := by
        rw [← Int.lt_zpow_iff_log_lt (by norm_num) hq]
        simpa using h2
      omega
    · rw [← Int.zpow_le_iff_le_log (by norm_num) hq]
      simpa using h1
  have hE : fl_exp emin q = e := by
    rw [fl_exp, hlog]
    exact max_eq_left he
  unfold fl
  rw [hE, round_even_of_close _ N hN]

/-! ## The two formats -/

theorem fl32_mono {x y : ℚ} (h : x ≤ y) : fl32 x ≤ fl32 y := fl_mono 23 (-126) h

theorem fl64_mono {x y : ℚ} (h : x ≤ y) : fl64 x ≤ fl64 y := fl_mono 52 (-1022) h

theorem fl32_zero : fl32 0 = 0 := fl_zero 23 (-126)

theorem fl64_zero : fl64 0 = 0 := fl_zero 52 (-1022)

theorem fl32_nonneg {q : ℚ} (h : 0 ≤ q) : 0 ≤ fl32 q := fl_nonneg 23 (-126) h

/-- A dyadic number `N / 2^m` with `|N| < 2^24` and `m ≤ 149` is a `float`. -/
theorem fl32_dyadic (q : ℚ) (N : Int) (m : ℕ) (hq : q = (N : ℚ) / 2 ^ m)
    (hN : |N| < 2 ^ 24) (hm : m ≤ 149) : fl32 q = q := by
  have h : q = (N : ℚ) * (2 : ℚ) ^ (-(m : Int)) := by
    rw [hq, zpow_neg, zpow_natCast, div_eq_mul_inv]
  rw [h]
  exact fl_rep 23 (-126) N (-(m : Int)) hN (by push_cast; omega)

/-- A dyadic number `N / 2^m` with `|N| < 2^53` and `m ≤ 1074` is a `double`. -/
theorem fl64_dyadic (q : ℚ) (N : Int) (m : ℕ) (hq : q = (N : ℚ) / 2 ^ m)
    (hN : |N| < 2 ^ 53) (hm : m ≤ 1074) : fl64 q = q := by
  have h : q = (N : ℚ) * (2 : ℚ) ^ (-(m : Int)) := by
    rw [hq, zpow_neg, zpow_natCast, div_eq_mul_inv]
  rw [h]
  exact fl_rep 52 (-1022) N (-(m : Int)) hN (by push_cast; omega)

/-- A number `N * 2^m` with `|N| < 2^24` is a `float`. -/
theorem fl32_scaled (q : ℚ) (N : Int) (m : ℕ) (hq : q = (N : ℚ) * 2 ^ m)
    (hN : |N| < 2 ^ 24) : fl32 q = q := by
  have h : q = (N : ℚ) * (2 : ℚ) ^ ((m : Int)) := by
    rw [hq, zpow_natCast]
  rw [h]
  exact fl_rep 23 (-126) N (m : Int) hN (by push_cast; omega)

theorem abs_fl_le (t : ℕ) (emin : Int) (hemin : emin ≤ t) (q : ℚ) (m : ℕ)
    (h : |q| ≤ 2 ^ m) : |fl t emin q| ≤ 2 ^ m := by
  have hrep : fl t emin ((2 : ℚ) ^ m) = (2 : ℚ) ^ m := by
    have := fl_rep t emin 1 (m : Int) (by
      have : (1 : Int) < 2 ^ (t + 1) := one_lt_pow₀ (by norm_num) (by omega)
      simpa using this) (by omega)
    simpa using this
  rw [abs_le] at h ⊢
  constructor
  · have := fl_mono t emin h.1
    rw [fl_neg, hrep] at this
    exact this
  · have := fl_mono t emin h.2
    rw [hrep] at this
    exact this

theorem abs_fl32_le (q : ℚ) (m : ℕ) (h : |q| ≤ 2 ^ m) : |fl32 q| ≤ 2 ^ m :=
  abs_fl_le 23 (-126) (by norm_num) q m h

theorem abs_fl64_le (q : ℚ) (m : ℕ) (h : |q| ≤ 2 ^ m) : |fl64 q| ≤ 2 ^ m :=
  abs_fl_le 52 (-1022) (by norm_num) q m h

/-- No overflow in `float` for a result of magnitude at most `2^40`. -/
theorem round32_fin (q : ℚ) (h : |q| ≤ 2 ^ 40) :
    CFloat.round32 (CFloat.fin q) = CFloat.fin (fl32 q) := by
  have h1 : |fl 23 (-126) q| ≤ 2 ^ 40 := abs_fl32_le q 40 h
  have h2 : ¬ ((2 : ℚ) ^ ((127 : Int) + 1) ≤ |fl 23 (-126) q|) := by
    have : (2 : ℚ) ^ 40 < (2 : ℚ) ^ ((127 : Int) + 1) := by norm_num
    intro h3
    linarith
  simp only [CFloat.round32, CFloat.round, if_neg h2, fl32]

/-- No overflow in `double` for a result of magnitude at most `2^40`. -/
theorem round64_fin (q : ℚ) (h : |q| ≤ 2 ^ 40) :
    CFloat.round64 (CFloat.fin q) = CFloat.fin (fl64 q) := by
  have h1 : |fl 52 (-1022) q| ≤ 2 ^ 40 := abs_fl64_le q 40 h
  have h2 : ¬ ((2 : ℚ) ^ ((1023 : Int) + 1) ≤ |fl 52 (-1022) q|) := by
    have : (2 : ℚ) ^ 40 < (2 : ℚ) ^ ((1023 : Int) + 1) := by norm_num
    intro h3
    linarith
  simp only [CFloat.round64, CFloat.round, if_neg h2, fl64]

theorem round32_pinf : CFloat.round32 CFloat.pinf = CFloat.pinf := rfl

/-- An `int` of magnitude below `2^24` converts to `float` exactly. -/
theorem int_to_float_small (i : Int) (h : |i| < 2 ^ 24) :
    int_to_float i = CFloat.fin i := by
  have habs : |(i : ℚ)| ≤ 2 ^ 40 := by
    have : |i| ≤ 2 ^ 40 := le_trans h.le (by norm_num)
    exact_mod_cast this
  rw [int_to_float, round32_fin _ habs, fl32_scaled (i : ℚ) i 0 (by simp) h]

/-- The powers of ten that fit an `int` convert to `float` exactly. -/
theorem int_to_float_pow10 (k : ℕ) (hk : k ≤ 9) :
    int_to_float ((10 : Int) ^ k) = CFloat.fin ((10 : ℚ) ^ k) := by
  have h5 : (5 : Int) ^ k ≤ 5 ^ 9 := pow_le_pow_right₀ (by norm_num) hk
  have h10 : (10 : ℚ) ^ k ≤ 10 ^ 9 := pow_le_pow_right₀ (by norm_num) hk
  have habs : |(((10 : Int) ^ k : Int) : ℚ)| ≤ 2 ^ 40 := by
    push_cast
    rw [abs_of_nonneg (by positivity)]
    exact le_trans h10 (by norm_num)
  rw [int_to_float, round32_fin _ habs]
  congr 1
  push_cast
  apply fl32_scaled _ ((5 : Int) ^ k) k
  · push_cast
    rw [← mul_pow]
    norm_num
  · rw [abs_of_nonneg (by positivity)]
    exact lt_of_le_of_lt h5 (by norm_num)

/-! ## The search loop -/

theorem float_diff_fin (n : ℚ) (e : Int) (hn : |n| ≤ 2 ^ 4) (he0 : 0 ≤ e) (he1 : e ≤ 1600) :
    float_diff (CFloat.fin n) e = CFloat.fin (e24_diff n e) := by
  have hc : |(e : ℚ) / 100| ≤ 2 ^ 4 := by
    have h0 : (0 : ℚ) ≤ (e : ℚ) := by exact_mod_cast he0
    have h1 : (e : ℚ) ≤ 1600 := by exact_mod_cast he1
    rw [abs_of_nonneg (by positivity), div_le_iff₀ (by norm_num)]
    norm_num
    linarith
  have hc' : |fl64 ((e : ℚ) / 100)| ≤ 2 ^ 4 := abs_fl64_le _ 4 hc
  have hx : |n - fl64 ((e : ℚ) / 100)| ≤ 2 ^ 5 := by
    have := abs_sub n (fl64 ((e : ℚ) / 100))
    norm_num at hn hc' ⊢
    linarith
  have hx' : |fl64 (n - fl64 ((e : ℚ) / 100))| ≤ 2 ^ 5 := abs_fl64_le _ 5 hx
  have h100 : ((100 : Int) : ℚ) ≠ 0 := by norm_num
  have hdiv : CFloat.div (CFloat.fin (e : ℚ)) (CFloat.fin 100) = CFloat.fin ((e : ℚ) / 100) := by
    simp [CFloat.div]
  rw [float_diff, hdiv, round64_fin _ (le_trans hc (by norm_num))]
  simp only [CFloat.sub]
  rw [round64_fin _ (le_trans hx (by norm_num))]
  simp only [CFloat.fabs]
  rw [round32_fin _ (by rw [abs_abs]; exact le_trans hx' (by norm_num))]
  rfl

theorem e24_diff_nonneg (n : ℚ) (e : Int) : 0 ≤ e24_diff n e :=
  fl32_nonneg (abs_nonneg _)

theorem scan_step_fin (n d : ℚ) (c e : Int) (hn : |n| ≤ 2 ^ 4) (he0 : 0 ≤ e)
    (he1 : e ≤ 1600) :
    scan_step (CFloat.fin n) (c, CFloat.fin d) e
      = if e24_diff n e < d then (e, CFloat.fin (e24_diff n e)) else (c, CFloat.fin d) := by
  simp [scan_step, float_diff_fin n e hn he0 he1, CFloat.lt]

/-- Invariant of the loop: the state holds the first entry, among those visited,
whose computed difference is minimal. -/
theorem scan_invariant (n : ℚ) (hn : |n| ≤ 2 ^ 4) (l : List Int) :
    (∀ e ∈ l, 0 ≤ e ∧ e ≤ 1600) →
    ∀ (pre : List Int) (x : Int) (mid : List Int),
      (∀ y ∈ pre, e24_diff n x < e24_diff n y) →
      (∀ y ∈ mid, e24_diff n x ≤ e24_diff n y) →
      ∃ (x' : Int) (pre' post' : List Int),
        pre ++ x :: (mid ++ l) = pre' ++ x' :: post' ∧
        l.foldl (scan_step (CFloat.fin n)) (x, CFloat.fin (e24_diff n x))
          = (x', CFloat.fin (e24_diff n x')) ∧
        (∀ y ∈ pre', e24_diff n x' < e24_diff n y) ∧
        (∀ y ∈ post', e24_diff n x' ≤ e24_diff n y) := by
  induction l with
  | nil =>
    intro _ pre x mid hpre hmid
    exact ⟨x, pre, mid, by simp, rfl, hpre, hmid⟩
  | cons e l ih =>
    intro hl pre x mid hpre hmid
    have he := hl e (List.mem_cons_self e l)
    have hl' : ∀ y ∈ l, 0 ≤ y ∧ y ≤ 1600 := fun y hy => hl y (List.mem_cons_of_mem e hy)
    rw [List.foldl_cons, scan_step_fin n _ x e hn he.1 he.2]
    by_cases hlt : e24_diff n e < e24_diff n x
    · rw [if_pos hlt]
      obtain ⟨x', pre', post', heq, hfold, h1, h2⟩ := ih hl' (pre ++ x :: mid) e []
        (by
          intro y hy
          rcases List.mem_append.1 hy with hy | hy
          · exact lt_trans hlt (hpre y hy)
          · rcases List.mem_cons.1 hy with rfl | hy
            · exact hlt
            · exact lt_of_lt_of_le hlt (hmid y hy))
        (by simp)
      exact ⟨x', pre', post', by simpa using heq, hfold, h1, h2⟩
    · rw [if_neg hlt]
      obtain ⟨x', pre', post', heq, hfold, h1, h2⟩ := ih hl' pre x (mid ++ [e]) hpre
        (by
          intro y hy
          rcases List.mem_append.1 hy with hy | hy
          · exact hmid y hy
          · simp at hy
            subst hy
            exact not_lt.1 hlt)
      exact ⟨x', pre', post', by simpa using heq, hfold, h1, h2⟩

theorem e24_series_range : ∀ e ∈ e24_series, 100 ≤ e ∧ e ≤ 910 ∧ e % 10 = 0 := by
  decide

theorem int_log10_of_bounds (q : ℚ) (k : ℕ) (h1 : (10 : ℚ) ^ k ≤ q) (h2 : q < (10 : ℚ) ^ (k + 1)) :
    int_log10 (CFloat.fin q) = some (k : Int) := by
  have hq1 : (1 : ℚ) ≤ q := le_trans (one_le_pow₀ (by norm_num)) h1
  have hq0 : (0 : ℚ) < q := by linarith
  have hlog : Nat.log 10 ⌊q⌋₊ = k := by
    apply Nat.log_eq_of_pow_le_of_lt_pow
    · apply Nat.le_floor
      push_cast
      exact h1
    · rw [Nat.floor_lt hq0.le]
      push_cast
      exact h2
  simp [int_log10, hq0, hq1, hlog]

theorem int_log10_bounds (q : ℚ) (hq : 1 ≤ q) :
    ∃ k : ℕ, int_log10 (CFloat.fin q) = some (k : Int) ∧ (10 : ℚ) ^ k ≤ q ∧
      q < (10 : ℚ) ^ (k + 1) := by
  have hq0 : (0 : ℚ) < q := by linarith
  have hfl : ⌊q⌋₊ ≠ 0 := by
    have : 1 ≤ ⌊q⌋₊ := Nat.le_floor (by simpa using hq)
    omega
  refine ⟨Nat.log 10 ⌊q⌋₊, by simp [int_log10, hq0, hq], ?_, ?_⟩
  · have h := Nat.pow_log_le_self 10 hfl
    have h2 : ((10 ^ Nat.log 10 ⌊q⌋₊ : ℕ) : ℚ) ≤ (⌊q⌋₊ : ℚ) := by exact_mod_cast h
    have h3 := Nat.floor_le hq0.le
    push_cast at h2
    linarith
  · have h := Nat.lt_pow_succ_log_self (by norm_num : 1 < 10) ⌊q⌋₊
    have h2 : ((⌊q⌋₊ + 1 : ℕ) : ℚ) ≤ ((10 ^ (Nat.log 10 ⌊q⌋₊).succ : ℕ) : ℚ) := by
      exact_mod_cast h
    have h3 := Nat.lt_floor_add_one q
    push_cast at h2
    rw [Nat.succ_eq_add_one] at h2
    linarith

theorem int_pow10_of_le (k : ℕ) (hk : k ≤ 9) :
    int_pow10 (k : Int) = some ((10 : Int) ^ k) := by
  have h : (10 : Int) ^ k ≤ 10 ^ 9 := pow_le_pow_right₀ (by norm_num) hk
  have h' : (10 : Int) ^ k ≤ INT_MAX := le_trans h (by norm_num [INT_MAX])
  simp [int_pow10, h']

theorem int_mul_of_bounds (a b : Int) (h1 : INT_MIN ≤ a * b) (h2 : a * b ≤ INT_MAX) :
    int_mul a b = some (a * b) := by
  simp [int_mul, h1, h2]

/-- The `float` mantissa of an estimate in the decade `[10^k, 10^(k+1))`. -/
theorem mantissa_bounds (q : ℚ) (k : ℕ) (h1 : (10 : ℚ) ^ k ≤ q) (h2 : q < (10 : ℚ) ^ (k + 1)) :
    1 ≤ q / 10 ^ k ∧ q / 10 ^ k < 10 ∧ 1 ≤ fl32 (q / 10 ^ k) ∧ fl32 (q / 10 ^ k) ≤ 10 := by
  have hp : (0 : ℚ) < 10 ^ k := by positivity
  have hm1 : 1 ≤ q / 10 ^ k := by rw [le_div_iff₀ hp]; linarith
  have hm2 : q / 10 ^ k < 10 := by
    rw [div_lt_iff₀ hp]
    calc q < 10 ^ (k + 1) := h2
      _ = 10 * 10 ^ k := by ring
  refine ⟨hm1, hm2, ?_, ?_⟩
  · have := fl32_mono hm1
    rwa [fl32_scaled 1 1 0 (by norm_num) (by norm_num)] at this
  · have := fl32_mono hm2.le
    rwa [fl32_scaled 10 10 0 (by norm_num) (by norm_num)] at this

/-- For a finite estimate in the decade `[10^k, 10^(k+1))`, `k ≤ 8`, the function
returns `e * (10^k / 100)` where `e` is the first entry of the table whose
computed difference to the `float` mantissa is minimal. -/
theorem find_closest_e24_decade (q : ℚ) (k : ℕ) (h1 : (10 : ℚ) ^ k ≤ q)
    (h2 : q < (10 : ℚ) ^ (k + 1)) (hk : k ≤ 8) :
    ∃ (e : Int) (pre post : List Int),
      e24_series = pre ++ e :: post ∧
      (∀ y ∈ pre, e24_diff (fl32 (q / 10 ^ k)) e < e24_diff (fl32 (q / 10 ^ k)) y) ∧
      (∀ y ∈ post, e24_diff (fl32 (q / 10 ^ k)) e ≤ e24_diff (fl32 (q / 10 ^ k)) y) ∧
      find_closest_e24 (CFloat.fin q) = some (e * ((10 : Int) ^ k / 100)) := by
  obtain ⟨hm1, hm2, hn1, hn2⟩ := mantissa_bounds q k h1 h2
  have hn : |fl32 (q / 10 ^ k)| ≤ 2 ^ 4 := by
    rw [abs_of_nonneg (by linarith)]
    norm_num
    linarith
  obtain ⟨e, pre, post, heq, hfold, hpre, hpost⟩ :=
    scan_invariant (fl32 (q / 10 ^ k)) hn (e24_series.drop 1)
      (by
        intro e he
        have := e24_series_range e (List.mem_of_mem_drop he)
        omega)
      [] 100 [] (by simp) (by simp)
  have heq' : e24_series = pre ++ e :: post := by
    rw [← heq]; rfl
  have hmem : e ∈ e24_series := by
    rw [heq']; simp
  obtain ⟨he1, he2, -⟩ := e24_series_range e hmem
  have hpow : ((10 : ℚ) ^ k) ≠ 0 := by positivity
  have hmabs : |q / 10 ^ k| ≤ 2 ^ 40 := by
    rw [abs_of_nonneg (by linarith)]
    norm_num
    linarith
  have hnorm : CFloat.round32 (CFloat.div (CFloat.fin q) (int_to_float ((10 : Int) ^ k)))
      = CFloat.fin (fl32 (q / 10 ^ k)) := by
    rw [int_to_float_pow10 k (by omega)]
    simp only [CFloat.div, if_neg hpow]
    exact round32_fin _ hmabs
  have hs : Int.tdiv ((10 : Int) ^ k) 100 = (10 : Int) ^ k / 100 :=
    Int.tdiv_eq_ediv (by positivity) (by norm_num)
  have hs0 : 0 ≤ (10 : Int) ^ k / 100 := Int.ediv_nonneg (by positivity) (by norm_num)
  have hs1 : (10 : Int) ^ k / 100 ≤ 1000000 := by
    have h : (10 : Int) ^ k ≤ 10 ^ 8 := pow_le_pow_right₀ (by norm_num) hk
    omega
  refine ⟨e, pre, post, heq', hpre, hpost, ?_⟩
  have hget : e24_series.get ⟨0, by decide⟩ = 100 := rfl
  simp only [find_closest_e24, int_log10_of_bounds q k h1 h2, Option.some_bind,
    int_pow10_of_le k (by omega), hnorm, hget, hs]
  rw [float_diff_fin _ 100 hn (by norm_num) (by norm_num), hfold]
  apply int_mul_of_bounds
  · have : 0 ≤ e * ((10 : Int) ^ k / 100) := mul_nonneg (by omega) hs0
    simp only [INT_MIN]; omega
  · have : e * ((10 : Int) ^ k / 100) ≤ 910 * 1000000 :=
      mul_le_mul he2 hs1 hs0 (by norm_num)
    simp only [INT_MAX]; omega

/-! ## Decades and two-digit values -/

theorem decade_of_range (q : ℚ) (h1 : 1 ≤ q) (h2 : q < 10 ^ 9) :
    ∃ k : ℕ, k ≤ 8 ∧ (10 : ℚ) ^ k ≤ q ∧ q < (10 : ℚ) ^ (k + 1) := by
  obtain ⟨k, -, hk1, hk2⟩ := int_log10_bounds q h1
  refine ⟨k, ?_, hk1, hk2⟩
  by_contra hk
  have h9 : (10 : ℚ) ^ 9 ≤ 10 ^ k := pow_le_pow_right₀ (by norm_num) (by omega)
  linarith

/-- In the branch `value ≥ 100`, for a value in the decade `[10^l, 10^(l+1))`
that fits an `int`, the bands are the two leading digits and `l - 1`. -/
theorem determine_bands_of_decade (value : Int) (l : ℕ) (hl : 2 ≤ l)
    (h1 : (10 : Int) ^ l ≤ value) (h2 : value < (10 : Int) ^ (l + 1)) (h3 : value ≤ INT_MAX) :
    determine_bands value
      = some ⟨value / 10 ^ (l - 1) / 10, value / 10 ^ (l - 1) % 10, (l : Int) - 1⟩ := by
  have h100 : (100 : Int) ≤ value := by
    have : (10 : Int) ^ 2 ≤ 10 ^ l := pow_le_pow_right₀ (by norm_num) hl
    omega
  have hlog : int_log10 (CFloat.fin (value : ℚ)) = some (l : Int) := by
    apply int_log10_of_bounds
    · exact_mod_cast h1
    · exact_mod_cast h2
  have hsub : (l : Int) - 1 = ((l - 1 : ℕ) : Int) := by omega
  have hle : (10 : Int) ^ (l - 1) ≤ INT_MAX := by
    have : (10 : Int) ^ (l - 1) ≤ 10 ^ l := pow_le_pow_right₀ (by norm_num) (by omega)
    omega
  have hpow : int_pow10 ((l : Int) - 1) = some ((10 : Int) ^ (l - 1)) := by
    rw [hsub]
    simp [int_pow10, hle]
  have hpos : (0 : Int) < 10 ^ (l - 1) := by positivity
  have hdiv : int_div value (10 ^ (l - 1)) = some (value / 10 ^ (l - 1)) := by
    simp only [int_div, if_neg hpos.ne']
    rw [Int.tdiv_eq_ediv (by omega) hpos.le]
  have hq0 : 0 ≤ value / 10 ^ (l - 1) := Int.ediv_nonneg (by omega) hpos.le
  rw [determine_bands, if_neg (by omega), if_neg (by omega), hlog, Option.some_bind, hpow,
    Option.some_bind, hdiv, Option.some_bind, Int.tdiv_eq_ediv hq0 (by norm_num),
    Int.tmod_eq_emod hq0 (by norm_num)]

/-- Quotient of a value of the decade `[10^l, 10^(l+1))` by `10^(l-1)` has two digits. -/
theorem two_digit_quotient (value : Int) (l : ℕ) (hl : 1 ≤ l)
    (h1 : (10 : Int) ^ l ≤ value) (h2 : value < (10 : Int) ^ (l + 1)) :
    10 ≤ value / 10 ^ (l - 1) ∧ value / 10 ^ (l - 1) ≤ 99 := by
  have hpos : (0 : Int) < 10 ^ (l - 1) := by positivity
  have e1 : (10 : Int) ^ l = 10 * 10 ^ (l - 1) := by
    rw [← pow_succ']; congr 1; omega
  have e2 : (10 : Int) ^ (l + 1) = 100 * 10 ^ (l - 1) := by
    rw [pow_succ, e1]; ring
  constructor
  · rw [Int.le_ediv_iff_mul_le hpos]; omega
  · have : value / 10 ^ (l - 1) < 100 := by
      rw [Int.ediv_lt_iff_lt_mul hpos]; omega
    omega

/-! ## First minimiser in table order -/

theorem index_of_split {α : Type} (pre post : List α) (x : α) :
    (pre ++ x :: post)[pre.length]? = some x ∧
    ∀ (j : ℕ) (y : α), (pre ++ x :: post)[j]? = some y →
      (j < pre.length → y ∈ pre) ∧ (j = pre.length → y = x) ∧ (pre.length < j → y ∈ post) := by
  induction pre with
  | nil =>
    refine ⟨by simp, ?_⟩
    intro j y hj
    cases j with
    | zero => simp at hj; simp [hj]
    | succ j =>
      simp at hj
      refine ⟨by simp, by simp, fun _ => List.getElem?_mem hj⟩
  | cons a pre ih =>
    refine ⟨by simpa using ih.1, ?_⟩
    intro j y hj
    cases j with
    | zero => simp at hj; simp [hj]
    | succ j =>
      simp at hj
      obtain ⟨h1, h2, h3⟩ := ih.2 j y hj
      refine ⟨fun h => ?_, fun h => ?_, fun h => ?_⟩
      · exact List.mem_cons_of_mem _ (h1 (by simpa using h))
      · exact h2 (by simpa using h)
      · exact h3 (by simpa using h)

theorem min_of_split (m : ℚ) (e : Int) (pre post : List Int)
    (hpre : ∀ y ∈ pre, e24_diff m e < e24_diff m y)
    (hpost : ∀ y ∈ post, e24_diff m e ≤ e24_diff m y) :
    ∀ y ∈ pre ++ e :: post, e24_diff m e ≤ e24_diff m y := by
  intro y hy
  rcases List.mem_append.1 hy with hy | hy
  · exact (hpre y hy).le
  · rcases List.mem_cons.1 hy with rfl | hy
    · exact le_rfl
    · exact hpost y hy

/-! ## Bounds on computed differences -/

theorem fl64_neg (q : ℚ) : fl64 (-q) = -fl64 q := fl_neg 52 (-1022) q

/-- Lower bound for an entry below the mantissa: `e/100 ≤ cU ≤ n - B`. -/
theorem e24_diff_ge_of_entry_below (n : ℚ) (e : Int) (cU B : ℚ)
    (hc : (e : ℚ) / 100 ≤ cU) (hcU : fl64 cU = cU) (hB : B ≤ n - cU)
    (hB64 : fl64 B = B) (hB32 : fl32 B = B) : B ≤ e24_diff n e := by
  have h1 : fl64 ((e : ℚ) / 100) ≤ cU := by
    have := fl64_mono hc
    rwa [hcU] at this
  have h2 : B ≤ fl64 (n - fl64 ((e : ℚ) / 100)) := by
    have := fl64_mono (show B ≤ n - fl64 ((e : ℚ) / 100) by linarith)
    rwa [hB64] at this
  have h3 : B ≤ |fl64 (n - fl64 ((e : ℚ) / 100))| := le_trans h2 (le_abs_self _)
  have := fl32_mono h3
  rwa [hB32] at this

/-- Lower bound for an entry above the mantissa: `n + B ≤ cL ≤ e/100`. -/
theorem e24_diff_ge_of_entry_above (n : ℚ) (e : Int) (cL B : ℚ)
    (hc : cL ≤ (e : ℚ) / 100) (hcL : fl64 cL = cL) (hB : B ≤ cL - n)
    (hB64 : fl64 B = B) (hB32 : fl32 B = B) : B ≤ e24_diff n e := by
  have h1 : cL ≤ fl64 ((e : ℚ) / 100) := by
    have := fl64_mono hc
    rwa [hcL] at this
  have h2 : fl64 (n - fl64 ((e : ℚ) / 100)) ≤ -B := by
    have := fl64_mono (show n - fl64 ((e : ℚ) / 100) ≤ -B by linarith)
    rwa [fl64_neg, hB64] at this
  have h3 : B ≤ |fl64 (n - fl64 ((e : ℚ) / 100))| := by
    have := neg_le_abs (fl64 (n - fl64 ((e : ℚ) / 100)))
    linarith
  have := fl32_mono h3
  rwa [hB32] at this

/-- Upper bound: `cL ≤ e/100 ≤ cU` with `n - cL ≤ A` and `cU - n ≤ A`. -/
theorem e24_diff_le (n : ℚ) (e : Int) (cL cU A : ℚ)
    (hcL : cL ≤ (e : ℚ) / 100) (hcU : (e : ℚ) / 100 ≤ cU)
    (hL64 : fl64 cL = cL) (hU64 : fl64 cU = cU) (h1 : n - cL ≤ A) (h2 : cU - n ≤ A)
    (hA64 : fl64 A = A) (hA32 : fl32 A = A) : e24_diff n e ≤ A := by
  have hc1 : cL ≤ fl64 ((e : ℚ) / 100) := by
    have := fl64_mono hcL
    rwa [hL64] at this
  have hc2 : fl64 ((e : ℚ) / 100) ≤ cU := by
    have := fl64_mono hcU
    rwa [hU64] at this
  have hx1 : fl64 (n - fl64 ((e : ℚ) / 100)) ≤ A := by
    have := fl64_mono (show n - fl64 ((e : ℚ) / 100) ≤ A by linarith)
    rwa [hA64] at this
  have hx2 : -A ≤ fl64 (n - fl64 ((e : ℚ) / 100)) := by
    have := fl64_mono (show -A ≤ n - fl64 ((e : ℚ) / 100) by linarith)
    rwa [fl64_neg, hA64] at this
  have h3 : |fl64 (n - fl64 ((e : ℚ) / 100))| ≤ A := abs_le.2 ⟨hx2, hx1⟩
  have := fl32_mono h3
  rwa [hA32] at this

/-! ## The first nearest entry (C1) -/

theorem fl32_of_17_10 : fl32 (17 / 10) = 7130317 / 4194304 := by
  have h := fl_eval 23 (-126) (17 / 10) 0 14260634 (by norm_num)
    (by rw [abs_of_pos (by norm_num)]; norm_num)
    (by rw [abs_of_pos (by norm_num)]; norm_num)
    (by norm_num [abs_lt])
  rw [fl32, h]
  norm_num

theorem e24_series_around_170 : ∀ e ∈ e24_series, e ≤ 160 ∨ e = 180 ∨ 200 ≤ e := by
  decide

theorem find_closest_e24_of_1700 : find_closest_e24 (CFloat.fin 1700) = some 1800 := by
  obtain ⟨e, pre, post, heq, hpre, hpost, hres⟩ :=
    find_closest_e24_decade 1700 3 (by norm_num) (by norm_num) (by norm_num)
  have hn : fl32 ((1700 : ℚ) / 10 ^ 3) = 7130317 / 4194304 := by
    rw [show (1700 : ℚ) / 10 ^ 3 = 17 / 10 by norm_num]
    exact fl32_of_17_10
  rw [hn] at hpre hpost
  have hmin := min_of_split _ e pre post hpre hpost
  rw [← heq] at hmin
  have hmem : e ∈ e24_series := by rw [heq]; simp
  have h180 := hmin 180 (by decide)
  have hA : e24_diff (7130317 / 4194304) 180 ≤ 107374136 / 2 ^ 30 :=
    e24_diff_le _ 180 (1932735283 / 2 ^ 30) (1932735284 / 2 ^ 30) _
      (by norm_num) (by norm_num)
      (fl64_dyadic _ 1932735283 30 (by norm_num) (by norm_num) (by norm_num))
      (fl64_dyadic _ 1932735284 30 (by norm_num) (by norm_num) (by norm_num))
      (by norm_num) (by norm_num)
      (fl64_dyadic _ 107374136 30 (by norm_num) (by norm_num) (by norm_num))
      (fl32_dyadic _ 13421767 27 (by norm_num) (by norm_num) (by norm_num))
  rcases e24_series_around_170 e hmem with hle | rfl | hge
  · exfalso
    have hle' : (e : ℚ) ≤ 160 := by exact_mod_cast hle
    have hB : (107374232 : ℚ) / 2 ^ 30 ≤ e24_diff (7130317 / 4194304) e :=
      e24_diff_ge_of_entry_below _ e (1717986919 / 2 ^ 30) _
        (by rw [div_le_iff₀ (by norm_num)]; norm_num; linarith)
        (fl64_dyadic _ 1717986919 30 (by norm_num) (by norm_num) (by norm_num))
        (by norm_num)
        (fl64_dyadic _ 107374232 30 (by norm_num) (by norm_num) (by norm_num))
        (fl32_dyadic _ 13421779 27 (by norm_num) (by norm_num) (by norm_num))
    have : (107374136 : ℚ) / 2 ^ 30 < 107374232 / 2 ^ 30 := by norm_num
    linarith
  · simpa using hres
  · exfalso
    have hge' : (200 : ℚ) ≤ (e : ℚ) := by exact_mod_cast hge
    have hB : (1 : ℚ) / 8 ≤ e24_diff (7130317 / 4194304) e :=
      e24_diff_ge_of_entry_above _ e 2 _
        (by rw [le_div_iff₀ (by norm_num)]; norm_num; linarith)
        (fl64_dyadic _ 2 0 (by norm_num) (by norm_num) (by norm_num))
        (by norm_num)
        (fl64_dyadic _ 1 3 (by norm_num) (by norm_num) (by norm_num))
        (fl32_dyadic _ 1 3 (by norm_num) (by norm_num) (by norm_num))
    have : (107374136 : ℚ) / 2 ^ 30 < 1 / 8 := by norm_num
    linarith

/-- C1, as stated, fails at `measured = 1700`: the mantissa `1.7` is at equal
distance from the entries 160 and 180, so the claim selects 160 (lower index)
and the value 1600, while the function returns 1800, because the `float`
quotient `1700 / 1000` is slightly above `1.7`. -/
theorem exact_tie_rule_fails_at_1700 :
    find_closest_e24 (CFloat.fin 1700) = some 1800 ∧
    ¬ ∃ (k i : ℕ) (e : Int),
      (10 : ℚ) ^ k ≤ 1700 ∧ (1700 : ℚ) < (10 : ℚ) ^ (k + 1) ∧
      e24_series[i]? = some e ∧
      (∀ (j : ℕ) (e' : Int), e24_series[j]? = some e' →
        |(1700 : ℚ) / 10 ^ k - (e : ℚ) / 100| ≤ |(1700 : ℚ) / 10 ^ k - (e' : ℚ) / 100|) ∧
      (∀ (j : ℕ) (e' : Int), j < i → e24_series[j]? = some e' →
        |(1700 : ℚ) / 10 ^ k - (e : ℚ) / 100| < |(1700 : ℚ) / 10 ^ k - (e' : ℚ) / 100|) ∧
      find_closest_e24 (CFloat.fin 1700) = some (e * ((10 : Int) ^ k / 100)) := by
  refine ⟨find_closest_e24_of_1700, ?_⟩
  rintro ⟨k, i, e, hk1, hk2, hi, -, hfirst, hres⟩
  have hk : k = 3 := by
    by_contra hne
    rcases Nat.lt_or_gt_of_ne hne with hlt | hgt
    · have : (10 : ℚ) ^ (k + 1) ≤ 10 ^ 3 := pow_le_pow_right₀ (by norm_num) (by omega)
      norm_num at this
      linarith
    · have : (10 : ℚ) ^ 4 ≤ 10 ^ k := pow_le_pow_right₀ (by norm_num) (by omega)
      norm_num at this
      linarith
  subst hk
  rw [find_closest_e24_of_1700] at hres
  have he : e = 180 := by
    have h := Option.some.inj hres
    norm_num at h
    omega
  subst he
  have hi6 : 5 < i := by
    by_contra hle
    have hlt : i < 6 := by omega
    interval_cases i <;> simp [e24_series] at hi
  have h := hfirst 5 160 hi6 (by simp [e24_series])
  norm_num at h

/-- C1 amended: for `100 ≤ measured < 10^9`, with `k = ⌊log10 measured⌋` (so
`decade = 10^k`) and `normalized` the `float` quotient `measured / 10^k`, the
function returns `e * (decade / 100)` where `e = e24_series[i]` minimises, over
the whole table, the difference as the code computes it (`e24_diff`, the `float`
value of `|normalized - e/100.0|`), and every entry of lower index has a
strictly larger computed difference. -/
theorem find_closest_e24_first_computed_nearest (measured : ℚ) (h1 : 100 ≤ measured)
    (h2 : measured < 10 ^ 9) :
    ∃ (k i : ℕ) (e : Int),
      (10 : ℚ) ^ k ≤ measured ∧ measured < (10 : ℚ) ^ (k + 1) ∧
      e24_series[i]? = some e ∧
      (∀ (j : ℕ) (e' : Int), e24_series[j]? = some e' →
        e24_diff (fl32 (measured / 10 ^ k)) e ≤ e24_diff (fl32 (measured / 10 ^ k)) e') ∧
      (∀ (j : ℕ) (e' : Int), j < i → e24_series[j]? = some e' →
        e24_diff (fl32 (measured / 10 ^ k)) e < e24_diff (fl32 (measured / 10 ^ k)) e') ∧
      find_closest_e24 (CFloat.fin measured) = some (e * ((10 : Int) ^ k / 100)) := by
  obtain ⟨k, hk, hk1, hk2⟩ := decade_of_range measured (by linarith) h2
  obtain ⟨e, pre, post, heq, hpre, hpost, hres⟩ :=
    find_closest_e24_decade measured k hk1 hk2 hk
  have hidx := index_of_split pre post e
  rw [← heq] at hidx
  refine ⟨k, pre.length, e, hk1, hk2, hidx.1, ?_, ?_, hres⟩
  · intro j e' hj
    have hmin := min_of_split (fl32 (measured / 10 ^ k)) e pre post hpre hpost
    rw [← heq] at hmin
    exact hmin e' (List.getElem?_mem hj)
  · intro j e' hlt hj
    exact hpre e' ((hidx.2 j e' hj).1 hlt)

/-- C1 amended, witness: the estimate 1700 ohms. -/
theorem find_closest_e24_first_computed_nearest_witness :
    (100 : ℚ) ≤ 1700 ∧ (1700 : ℚ) < 10 ^ 9 ∧ ∃ (k i : ℕ) (e : Int),
      (10 : ℚ) ^ k ≤ 1700 ∧ (1700 : ℚ) < (10 : ℚ) ^ (k + 1) ∧
      e24_series[i]? = some e ∧
      (∀ (j : ℕ) (e' : Int), e24_series[j]? = some e' →
        e24_diff (fl32 ((1700 : ℚ) / 10 ^ k)) e ≤ e24_diff (fl32 ((1700 : ℚ) / 10 ^ k)) e') ∧
      (∀ (j : ℕ) (e' : Int), j < i → e24_series[j]? = some e' →
        e24_diff (fl32 ((1700 : ℚ) / 10 ^ k)) e < e24_diff (fl32 ((1700 : ℚ) / 10 ^ k)) e') ∧
      find_closest_e24 (CFloat.fin 1700) = some (e * ((10 : Int) ^ k / 100)) :=
  ⟨by norm_num, by norm_num,
    find_closest_e24_first_computed_nearest 1700 (by norm_num) (by norm_num)⟩

/-! ## Round trip and small decades (C2, C3) -/

theorem pow_div_hundred (j : ℕ) : (10 : Int) ^ (j + 2) / 100 = 10 ^ j := by
  rw [pow_add]
  norm_num

/-- C2: round trip.  For `1 ≤ measured < 10^9` the value `v` returned by
`find_closest_e24` is defined, its bands are defined, the multiplier is not
negative and `(digit1*10 + digit2) * 10^multiplier = v`. -/
theorem bands_expand_to_closest (measured : ℚ) (h1 : 1 ≤ measured) (h2 : measured < 10 ^ 9) :
    ∃ (v : Int) (b : ResistorBands),
      find_closest_e24 (CFloat.fin measured) = some v ∧
      determine_bands v = some b ∧
      0 ≤ b.multiplier ∧
      (b.digit1 * 10 + b.digit2) * 10 ^ b.multiplier.toNat = v := by
  obtain ⟨k, hk, hk1, hk2⟩ := decade_of_range measured h1 h2
  obtain ⟨e, pre, post, heq, -, -, hres⟩ := find_closest_e24_decade measured k hk1 hk2 hk
  have hmem : e ∈ e24_series := by rw [heq]; simp
  obtain ⟨he1, he2, he3⟩ := e24_series_range e hmem
  by_cases hk2' : k < 2
  · have hz : (10 : Int) ^ k / 100 = 0 := by
      interval_cases k <;> norm_num
    rw [hz, mul_zero] at hres
    exact ⟨0, ⟨0, 0, 0⟩, hres, by simp [determine_bands], by simp, by simp⟩
  · obtain ⟨j, rfl⟩ : ∃ j, k = j + 2 := ⟨k - 2, by omega⟩
    rw [pow_div_hundred] at hres
    have hp : (0 : Int) < 10 ^ j := by positivity
    have e1 : (10 : Int) ^ (j + 2) = 100 * 10 ^ j := by rw [pow_add]; ring
    have e2 : (10 : Int) ^ (j + 2 + 1) = 1000 * 10 ^ j := by rw [pow_add, pow_add]; ring
    have e3 : (10 : Int) ^ (j + 2 - 1) = 10 * 10 ^ j := by
      rw [show j + 2 - 1 = j + 1 by omega, pow_succ]; ring
    have hlo : (10 : Int) ^ (j + 2) ≤ e * 10 ^ j := by
      rw [e1]; exact mul_le_mul_of_nonneg_right he1 hp.le
    have hhi : e * 10 ^ j < (10 : Int) ^ (j + 2 + 1) := by
      rw [e2]; exact mul_lt_mul_of_pos_right (by omega) hp
    have hmax : e * 10 ^ j ≤ INT_MAX := by
      have h9 : (10 : Int) ^ (j + 2 + 1) ≤ 10 ^ 9 := pow_le_pow_right₀ (by norm_num) (by omega)
      simp only [INT_MAX]; omega
    have hb := determine_bands_of_decade (e * 10 ^ j) (j + 2) (by omega) hlo hhi hmax
    refine ⟨e * 10 ^ j, _, hres, hb, ?_, ?_⟩
    · simp only; omega
    · have hmul : ((j + 2 : ℕ) : Int) - 1 = ((j + 1 : ℕ) : Int) := by omega
      simp only [hmul, Int.toNat_ofNat]
      obtain ⟨c, rfl⟩ : ∃ c, e = 10 * c := ⟨e / 10, by omega⟩
      have hq : 10 * c * 10 ^ j / 10 ^ (j + 2 - 1) = c := by
        rw [e3, show 10 * c * 10 ^ j = c * (10 * 10 ^ j) by ring]
        exact Int.mul_ediv_cancel _ (by positivity)
      rw [hq, pow_succ]
      have := Int.ediv_add_emod c 10
      calc (c / 10 * 10 + c % 10) * (10 ^ j * 10) = (10 * (c / 10) + c % 10) * (10 ^ j * 10) := by
            ring
        _ = c * (10 ^ j * 10) := by rw [this]
        _ = 10 * c * 10 ^ j := by ring

/-- C2 witness: the estimate 4700 ohms. -/
theorem bands_expand_to_closest_witness :
    (1 : ℚ) ≤ 4700 ∧ (4700 : ℚ) < 10 ^ 9 ∧ ∃ (v : Int) (b : ResistorBands),
      find_closest_e24 (CFloat.fin 4700) = some v ∧
      determine_bands v = some b ∧
      0 ≤ b.multiplier ∧
      (b.digit1 * 10 + b.digit2) * 10 ^ b.multiplier.toNat = v :=
  ⟨by norm_num, by norm_num, bands_expand_to_closest 4700 (by norm_num) (by norm_num)⟩

/-- C3: the estimate 47 ohms lies in the decade `[10, 100)` and the function
returns `0`, which is outside that decade and not positive. -/
theorem find_closest_e24_of_47 :
    (10 : ℚ) ^ 1 ≤ 47 ∧ (47 : ℚ) < 10 ^ 2 ∧ find_closest_e24 (CFloat.fin 47) = some 0 := by
  obtain ⟨e, pre, post, -, -, -, hres⟩ :=
    find_closest_e24_decade 47 1 (by norm_num) (by norm_num) (by norm_num)
  have hz : (10 : Int) ^ 1 / 100 = 0 := by norm_num
  rw [hz, mul_zero] at hres
  exact ⟨by norm_num, by norm_num, hres⟩

/-! ## Decade boundaries and the unit mantissa (C6, C7) -/

theorem e24_series_top : ∀ e ∈ e24_series, e ≤ 820 ∨ e = 910 := by
  decide

theorem e24_series_bottom : ∀ e ∈ e24_series, e = 100 ∨ 110 ≤ e := by
  decide

/-- A mantissa above 9.55 selects the entry 910. -/
theorem closest_of_high_mantissa (q : ℚ) (k : ℕ) (hk : k ≤ 8)
    (h1 : (955 : ℚ) / 100 * 10 ^ k < q) (h2 : q < (10 : ℚ) ^ (k + 1)) :
    find_closest_e24 (CFloat.fin q) = some (910 * ((10 : Int) ^ k / 100)) := by
  have hp : (0 : ℚ) < 10 ^ k := by positivity
  have hlo : (10 : ℚ) ^ k ≤ q := by nlinarith
  obtain ⟨e, pre, post, heq, hpre, hpost, hres⟩ := find_closest_e24_decade q k hlo h2 hk
  have hmin := min_of_split _ e pre post hpre hpost
  rw [← heq] at hmin
  have hmem : e ∈ e24_series := by rw [heq]; simp
  obtain ⟨-, -, -, hn2⟩ := mantissa_bounds q k hlo h2
  have hm : (19 : ℚ) / 2 ≤ q / 10 ^ k := by
    rw [le_div_iff₀ hp]; linarith
  have hn1 : (19 : ℚ) / 2 ≤ fl32 (q / 10 ^ k) := by
    have := fl32_mono hm
    rwa [fl32_dyadic _ 19 1 (by norm_num) (by norm_num) (by norm_num)] at this
  have h910 := hmin 910 (by decide)
  have hA : e24_diff (fl32 (q / 10 ^ k)) 910 ≤ 1 :=
    e24_diff_le _ 910 9 (73 / 8) 1 (by norm_num) (by norm_num)
      (fl64_dyadic _ 9 0 (by norm_num) (by norm_num) (by norm_num))
      (fl64_dyadic _ 73 3 (by norm_num) (by norm_num) (by norm_num))
      (by linarith) (by linarith)
      (fl64_dyadic _ 1 0 (by norm_num) (by norm_num) (by norm_num))
      (fl32_dyadic _ 1 0 (by norm_num) (by norm_num) (by norm_num))
  rcases e24_series_top e hmem with hle | rfl
  · exfalso
    have hle' : (e : ℚ) ≤ 820 := by exact_mod_cast hle
    have hB : (5 : ℚ) / 4 ≤ e24_diff (fl32 (q / 10 ^ k)) e :=
      e24_diff_ge_of_entry_below _ e (33 / 4) _
        (by rw [div_le_iff₀ (by norm_num)]; norm_num; linarith)
        (fl64_dyadic _ 33 2 (by norm_num) (by norm_num) (by norm_num))
        (by linarith)
        (fl64_dyadic _ 5 2 (by norm_num) (by norm_num) (by norm_num))
        (fl32_dyadic _ 5 2 (by norm_num) (by norm_num) (by norm_num))
    linarith
  · exact hres

theorem fl32_of_21_20 : fl32 (21 / 20) = 4404019 / 4194304 := by
  have h := fl_eval 23 (-126) (21 / 20) 0 8808038 (by norm_num)
    (by rw [abs_of_pos (by norm_num)]; norm_num)
    (by rw [abs_of_pos (by norm_num)]; norm_num)
    (by norm_num [abs_lt])
  rw [fl32, h]
  norm_num

/-- A mantissa in `[1, 1.05]` selects the entry 100. -/
theorem closest_of_low_mantissa (q : ℚ) (k : ℕ) (hk : k ≤ 8)
    (h1 : (10 : ℚ) ^ k ≤ q) (h2 : q ≤ (105 : ℚ) / 100 * 10 ^ k) :
    find_closest_e24 (CFloat.fin q) = some (100 * ((10 : Int) ^ k / 100)) := by
  have hp : (0 : ℚ) < 10 ^ k := by positivity
  have hhi : q < (10 : ℚ) ^ (k + 1) := by
    rw [pow_succ]; nlinarith
  obtain ⟨e, pre, post, heq, hpre, hpost, hres⟩ := find_closest_e24_decade q k h1 hhi hk
  have hmem : e ∈ e24_series := by rw [heq]; simp
  obtain ⟨-, -, hn1, -⟩ := mantissa_bounds q k h1 hhi
  have hm2 : q / 10 ^ k ≤ 21 / 20 := by
    rw [div_le_iff₀ hp]; linarith
  have hn2 : fl32 (q / 10 ^ k) ≤ 4404019 / 4194304 := by
    have := fl32_mono hm2
    rwa [fl32_of_21_20] at this
  rcases e24_series_bottom e hmem with rfl | hge
  · exact hres
  · exfalso
    have hne : pre ≠ [] := by
      rintro rfl
      simp [e24_series] at heq
      omega
    obtain ⟨a, pre', rfl⟩ := List.exists_cons_of_ne_nil hne
    have ha : a = 100 := by
      simp [e24_series] at heq
      exact heq.1.symm
    have hlt := hpre a (by simp)
    rw [ha] at hlt
    have hge' : (110 : ℚ) ≤ (e : ℚ) := by exact_mod_cast hge
    have hA : e24_diff (fl32 (q / 10 ^ k)) 100 ≤ 419430 / 2 ^ 23 :=
      e24_diff_le _ 100 1 1 _ (by norm_num) (by norm_num)
        (fl64_dyadic _ 1 0 (by norm_num) (by norm_num) (by norm_num))
        (fl64_dyadic _ 1 0 (by norm_num) (by norm_num) (by norm_num))
        (by norm_num; linarith) (by norm_num; linarith)
        (fl64_dyadic _ 419430 23 (by norm_num) (by norm_num) (by norm_num))
        (fl32_dyadic _ 419430 23 (by norm_num) (by norm_num) (by norm_num))
    have hB : (53687140 : ℚ) / 2 ^ 30 ≤ e24_diff (fl32 (q / 10 ^ k)) e :=
      e24_diff_ge_of_entry_above _ e (1181116006 / 2 ^ 30) _
        (by rw [le_div_iff₀ (by norm_num)]; norm_num; linarith)
        (fl64_dyadic _ 1181116006 30 (by norm_num) (by norm_num) (by norm_num))
        (by norm_num; linarith)
        (fl64_dyadic _ 53687140 30 (by norm_num) (by norm_num) (by norm_num))
        (fl32_dyadic _ 13421785 28 (by norm_num) (by norm_num) (by norm_num))
    have : (419430 : ℚ) / 2 ^ 23 < 53687140 / 2 ^ 30 := by norm_num
    linarith

/-- C6: around a power of ten `10^k`, `3 ≤ k ≤ 8`, every estimate strictly
between `9.55 * 10^(k-1)` and `10^k` gives `91 * 10^(k-2)` (lower decade) and
the estimate `10^k` itself gives `10^k` (upper decade). -/
theorem decade_boundary (k : ℕ) (hk3 : 3 ≤ k) (hk8 : k ≤ 8) :
    (∀ measured : ℚ, (955 : ℚ) / 100 * 10 ^ (k - 1) < measured → measured < (10 : ℚ) ^ k →
      find_closest_e24 (CFloat.fin measured) = some (91 * (10 : Int) ^ (k - 2))) ∧
    find_closest_e24 (CFloat.fin ((10 : ℚ) ^ k)) = some ((10 : Int) ^ k) := by
  obtain ⟨j, rfl⟩ : ∃ j, k = j + 3 := ⟨k - 3, by omega⟩
  constructor
  · intro measured h1 h2
    have h := closest_of_high_mantissa measured (j + 2) (by omega) h1 h2
    rw [h, pow_div_hundred]
    congr 1
    rw [show j + 3 - 2 = j + 1 by omega, pow_succ]
    ring
  · have h := closest_of_low_mantissa ((10 : ℚ) ^ (j + 3)) (j + 3) hk8 le_rfl
      (by
        have : (0 : ℚ) < 10 ^ (j + 3) := by positivity
        linarith)
    rw [h, show j + 3 = (j + 1) + 2 by omega, pow_div_hundred]
    congr 1
    rw [pow_add]
    norm_num
    ring

/-- C6 witness: `find_closest_e24(999.9) = 910` and `find_closest_e24(1000.0) = 1000`. -/
theorem decade_boundary_witness :
    (3 ≤ 3 ∧ 3 ≤ 8) ∧ (955 : ℚ) / 100 * 10 ^ (3 - 1) < 9999 / 10 ∧
      (9999 : ℚ) / 10 < 10 ^ 3 ∧
      find_closest_e24 (CFloat.fin (9999 / 10)) = some 910 ∧
      find_closest_e24 (CFloat.fin 1000) = some 1000 := by
  have h := decade_boundary 3 (by norm_num) (by norm_num)
  refine ⟨by norm_num, by norm_num, by norm_num, ?_, ?_⟩
  · simpa using h.1 (9999 / 10) (by norm_num) (by norm_num)
  · have h2 := h.2
    norm_num at h2
    exact h2

/-- C7: for `2 ≤ k ≤ 8` and `10^k ≤ measured ≤ 1.05 * 10^k` the nominal value
is `10^k`, and its bands are `(1, 0, k - 1)`. -/
theorem unit_mantissa_pipeline (k : ℕ) (hk2 : 2 ≤ k) (hk8 : k ≤ 8) (measured : ℚ)
    (h1 : (10 : ℚ) ^ k ≤ measured) (h2 : measured ≤ (105 : ℚ) / 100 * 10 ^ k) :
    find_closest_e24 (CFloat.fin measured) = some ((10 : Int) ^ k) ∧
    determine_bands ((10 : Int) ^ k) = some ⟨1, 0, (k : Int) - 1⟩ := by
  constructor
  · rw [closest_of_low_mantissa measured k hk8 h1 h2]
    obtain ⟨j, rfl⟩ : ∃ j, k = j + 2 := ⟨k - 2, by omega⟩
    rw [pow_div_hundred, pow_add]
    congr 1
    ring
  · have hmax : (10 : Int) ^ k ≤ INT_MAX := by
      have : (10 : Int) ^ k ≤ 10 ^ 8 := pow_le_pow_right₀ (by norm_num) hk8
      simp only [INT_MAX]; omega
    rw [determine_bands_of_decade ((10 : Int) ^ k) k hk2 le_rfl
      (pow_lt_pow_right₀ (by norm_num) (by omega)) hmax]
    have hq : (10 : Int) ^ k / 10 ^ (k - 1) = 10 := by
      have e : (10 : Int) ^ k = 10 * 10 ^ (k - 1) := by
        rw [← pow_succ']; congr 1; omega
      rw [e]
      exact Int.mul_ediv_cancel _ (by positivity)
    rw [hq]
    rfl

/-! ## The measurement cycle (C4, C5, C7 witness, C10) -/

theorem find_closest_e24_nonfinite :
    find_closest_e24 CFloat.pinf = none ∧ find_closest_e24 CFloat.ninf = none ∧
      find_closest_e24 CFloat.nan = none := by
  simp [find_closest_e24, int_log10]

theorem find_closest_e24_nonpos (q : ℚ) (hq : q ≤ 0) :
    find_closest_e24 (CFloat.fin q) = none := by
  simp [find_closest_e24, int_log10, not_lt.2 hq]

theorem cycle_e24_value (media : ℚ) :
    (measurement_cycle media).e24_value = find_closest_e24 (measurement_cycle media).R_x := rfl

theorem cycle_bands (media : ℚ) :
    (measurement_cycle media).bands
      = (measurement_cycle media).e24_value.bind determine_bands := rfl

/-- The estimate for a reading of magnitude at most 4096: the product and the
difference are finite `float` values. -/
theorem cycle_R_x (media : ℚ) (h : |media| ≤ 4096) :
    (measurement_cycle media).R_x
      = CFloat.round32 (CFloat.div (CFloat.fin (fl32 (10000 * media)))
          (CFloat.fin (fl32 (4095 - media)))) := by
  have hR : int_to_float R_conhecido = CFloat.fin 10000 := by
    have := int_to_float_small R_conhecido (by norm_num [R_conhecido])
    simpa [R_conhecido] using this
  have hA : int_to_float ADC_RESOLUTION = CFloat.fin 4095 := by
    have := int_to_float_small ADC_RESOLUTION (by norm_num [ADC_RESOLUTION])
    simpa [ADC_RESOLUTION] using this
  have h1 : |10000 * media| ≤ 2 ^ 40 := by
    rw [abs_mul, abs_of_pos (by norm_num : (0 : ℚ) < 10000)]
    norm_num
    linarith
  have h2 : |4095 - media| ≤ 2 ^ 40 := by
    have := abs_sub (4095 : ℚ) media
    rw [abs_of_pos (by norm_num : (0 : ℚ) < 4095)] at this
    norm_num
    linarith
  show CFloat.round32 (CFloat.div
    (CFloat.round32 (CFloat.mul (int_to_float R_conhecido) (CFloat.fin media)))
    (CFloat.round32 (CFloat.sub (int_to_float ADC_RESOLUTION) (CFloat.fin media)))) = _
  rw [hR, hA]
  simp only [CFloat.mul, CFloat.sub]
  rw [round32_fin _ h1, round32_fin _ h2]

theorem cycle_R_x_at_4095 : (measurement_cycle 4095).R_x = CFloat.pinf := by
  rw [cycle_R_x 4095 (by norm_num)]
  have h1 : fl32 (10000 * 4095) = 40950000 := by
    rw [fl32_scaled _ 2559375 4 (by norm_num) (by norm_num)]; norm_num
  have h2 : fl32 (4095 - 4095) = 0 := by
    rw [sub_self]; exact fl32_zero
  rw [h1, h2]
  simp [CFloat.div, CFloat.round32, CFloat.round]

theorem cycle_R_x_at_0 : (measurement_cycle 0).R_x = CFloat.fin 0 := by
  rw [cycle_R_x 0 (by norm_num)]
  have h1 : fl32 (10000 * 0) = 0 := by
    rw [mul_zero]; exact fl32_zero
  have h2 : fl32 (4095 - 0) = 4095 := by
    rw [fl32_scaled _ 4095 0 (by norm_num) (by norm_num)]; norm_num
  rw [h1, h2]
  have h3 : CFloat.div (CFloat.fin 0) (CFloat.fin 4095) = CFloat.fin 0 := by
    simp [CFloat.div]
  rw [h3, round32_fin _ (by norm_num), fl32_zero]

theorem fl32_of_estimate_2048 : fl32 (20480000 / 2047) = 5122501 / 512 := by
  have h := fl_eval 23 (-126) (20480000 / 2047) 13 10245002 (by norm_num)
    (by rw [abs_of_pos (by norm_num)]; norm_num)
    (by rw [abs_of_pos (by norm_num)]; norm_num)
    (by norm_num [abs_lt])
  rw [fl32, h]
  norm_num

theorem cycle_R_x_at_2048 : (measurement_cycle 2048).R_x = CFloat.fin (5122501 / 512) := by
  rw [cycle_R_x 2048 (by norm_num)]
  have h1 : fl32 (10000 * 2048) = 20480000 := by
    rw [fl32_scaled _ 625 15 (by norm_num) (by norm_num)]; norm_num
  have h2 : fl32 (4095 - 2048) = 2047 := by
    rw [fl32_scaled _ 2047 0 (by norm_num) (by norm_num)]; norm_num
  rw [h1, h2]
  have h3 : CFloat.div (CFloat.fin 20480000) (CFloat.fin 2047)
      = CFloat.fin (20480000 / 2047) := by
    simp [CFloat.div]
  rw [h3, round32_fin _ (by rw [abs_of_pos (by norm_num)]; norm_num), fl32_of_estimate_2048]

/-- C4, as stated, fails at `media = 4095`: the divisor `ADC_RESOLUTION - media`
is zero, the division is carried out all the same, the estimate of the cycle is
`+inf`, and `find_closest_e24` is called on it. -/
theorem open_circuit_estimate_is_infinite :
    (ADC_RESOLUTION : ℚ) - 4095 = 0 ∧ (measurement_cycle 4095).R_x = CFloat.pinf ∧
    (measurement_cycle 4095).e24_value = find_closest_e24 CFloat.pinf := by
  have hR := cycle_R_x_at_4095
  exact ⟨by norm_num [ADC_RESOLUTION], hR, by rw [cycle_e24_value, hR]⟩

/-- C4 amended: when `media = ADC_RESOLUTION` the cycle divides by zero without
any check; the estimate is `+inf`, it is the argument of `find_closest_e24`,
the conversion `(int)log10(+inf)` there is undefined, and the cycle has neither
a nominal value nor bands. -/
theorem open_circuit_unguarded (media : ℚ) (h : media = ADC_RESOLUTION) :
    (measurement_cycle media).R_x = CFloat.pinf ∧
    (measurement_cycle media).e24_value = find_closest_e24 CFloat.pinf ∧
    find_closest_e24 CFloat.pinf = none ∧
    (measurement_cycle media).bands = none := by
  have hm : media = 4095 := by rw [h]; norm_num [ADC_RESOLUTION]
  have hR : (measurement_cycle media).R_x = CFloat.pinf := by
    rw [hm]; exact cycle_R_x_at_4095
  have hE : (measurement_cycle media).e24_value = find_closest_e24 CFloat.pinf := by
    rw [cycle_e24_value, hR]
  have hN := find_closest_e24_nonfinite.1
  exact ⟨hR, hE, hN, by rw [cycle_bands, hE, hN]; rfl⟩

/-- C4 amended, witness: the averaged reading 4095. -/
theorem open_circuit_unguarded_witness :
    (4095 : ℚ) = ADC_RESOLUTION ∧
    (measurement_cycle 4095).R_x = CFloat.pinf ∧
    (measurement_cycle 4095).e24_value = find_closest_e24 CFloat.pinf ∧
    find_closest_e24 CFloat.pinf = none ∧
    (measurement_cycle 4095).bands = none :=
  ⟨by norm_num [ADC_RESOLUTION], open_circuit_unguarded 4095 (by norm_num [ADC_RESOLUTION])⟩

/-- C5, as stated, fails at `media = 0`: the estimate is `0` and the value of the
cycle is that of `find_closest_e24(0)`, whose `(int)log10(0)` is undefined; the
call is not skipped. -/
theorem zero_estimate_reaches_matcher :
    (measurement_cycle 0).R_x = CFloat.fin 0 ∧
    (measurement_cycle 0).e24_value = find_closest_e24 (CFloat.fin 0) ∧
    find_closest_e24 (CFloat.fin 0) = none := by
  have hR := cycle_R_x_at_0
  exact ⟨hR, by rw [cycle_e24_value, hR], find_closest_e24_nonpos 0 le_rfl⟩

/-- C5 amended: whenever the estimate of the cycle is a finite `q ≤ 0`, the cycle
passes it unchecked to `find_closest_e24`, whose `(int)log10(q)` is undefined, so
the cycle has neither a nominal value nor bands. -/
theorem nonpositive_estimate_unguarded (media q : ℚ)
    (hR : (measurement_cycle media).R_x = CFloat.fin q) (hq : q ≤ 0) :
    (measurement_cycle media).e24_value = find_closest_e24 (CFloat.fin q) ∧
    find_closest_e24 (CFloat.fin q) = none ∧
    (measurement_cycle media).bands = none := by
  have hE : (measurement_cycle media).e24_value = find_closest_e24 (CFloat.fin q) := by
    rw [cycle_e24_value, hR]
  have hN := find_closest_e24_nonpos q hq
  exact ⟨hE, hN, by rw [cycle_bands, hE, hN]; rfl⟩

/-- C5 amended, witness: the averaged reading 0, estimate 0. -/
theorem nonpositive_estimate_unguarded_witness :
    (measurement_cycle 0).R_x = CFloat.fin 0 ∧ (0 : ℚ) ≤ 0 ∧
    (measurement_cycle 0).e24_value = find_closest_e24 (CFloat.fin 0) ∧
    find_closest_e24 (CFloat.fin 0) = none ∧
    (measurement_cycle 0).bands = none :=
  ⟨cycle_R_x_at_0, le_rfl, nonpositive_estimate_unguarded 0 0 cycle_R_x_at_0 le_rfl⟩

/-- C7 witness: the averaged reading 2048 gives the `float` estimate
`5122501/512` (the rounding of `10000*2048/2047`, about 10004.88), the nominal
value 10000 and the bands `(1, 0, 3)`. -/
theorem unit_mantissa_pipeline_witness :
    (2 ≤ 4 ∧ 4 ≤ 8) ∧
      (10 : ℚ) ^ 4 ≤ 5122501 / 512 ∧ (5122501 : ℚ) / 512 ≤ 105 / 100 * 10 ^ 4 ∧
      (measurement_cycle 2048).R_x = CFloat.fin (5122501 / 512) ∧
      (measurement_cycle 2048).e24_value = some 10000 ∧
      (measurement_cycle 2048).bands = some ⟨1, 0, 3⟩ := by
  have h := unit_mantissa_pipeline 4 (by norm_num) (by norm_num) (5122501 / 512)
    (by norm_num) (by norm_num)
  have hR := cycle_R_x_at_2048
  have h1 : find_closest_e24 (CFloat.fin (5122501 / 512)) = some 10000 := by
    simpa using h.1
  have h2 : determine_bands 10000 = some ⟨1, 0, 3⟩ := by
    simpa using h.2
  have hE : (measurement_cycle 2048).e24_value = some 10000 := by
    rw [cycle_e24_value, hR, h1]
  have hB : (measurement_cycle 2048).bands = some ⟨1, 0, 3⟩ := by
    rw [cycle_bands, hE, Option.some_bind, h2]
  exact ⟨by norm_num, by norm_num, by norm_num, hR, hE, hB⟩

theorem fl_exp_eq (emin : Int) (q : ℚ) (e : Int) (he : emin ≤ e)
    (h1 : (2 : ℚ) ^ e ≤ |q|) (h2 : |q| < (2 : ℚ) ^ (e + 1)) : fl_exp emin q = e := by
  have hq : 0 < |q| := lt_of_lt_of_le (two_zpow_pos e) h1
  have hlog : Int.log 2 |q| = e := by
    apply le_antisymm
    · have : Int.log 2 |q| < e + 1 := by
        rw [← Int.lt_zpow_iff_log_lt (by norm_num) hq]
        simpa using h2
      omega
    · rw [← Int.zpow_le_iff_le_log (by norm_num) hq]
      simpa using h1
  rw [fl_exp, hlog]
  exact max_eq_left he

/-- A positive `float` is at least the smallest subnormal `2^(-149)`. -/
theorem float_pos_ge (q : ℚ) (hq : 0 < q) (hfl : fl32 q = q) : 1 / 2 ^ 149 ≤ q := by
  have hu := two_zpow_pos (fl_exp (-126) q - (23 : ℕ))
  have hR : (0 : ℚ) < (round_even (q / (2 : ℚ) ^ (fl_exp (-126) q - (23 : ℕ))) : ℚ) := by
    by_contra hle
    have hle' := not_lt.1 hle
    have : fl32 q ≤ 0 := mul_nonpos_of_nonpos_of_nonneg hle' hu.le
    linarith
  have hR1 : (1 : ℚ) ≤ (round_even (q / (2 : ℚ) ^ (fl_exp (-126) q - (23 : ℕ))) : ℚ) := by
    have : 0 < round_even (q / (2 : ℚ) ^ (fl_exp (-126) q - (23 : ℕ))) := by exact_mod_cast hR
    have : 1 ≤ round_even (q / (2 : ℚ) ^ (fl_exp (-126) q - (23 : ℕ))) := by omega
    exact_mod_cast this
  have hge : (2 : ℚ) ^ (fl_exp (-126) q - (23 : ℕ)) ≤ q := by
    calc (2 : ℚ) ^ (fl_exp (-126) q - (23 : ℕ))
        = 1 * (2 : ℚ) ^ (fl_exp (-126) q - (23 : ℕ)) := by ring
      _ ≤ (round_even (q / (2 : ℚ) ^ (fl_exp (-126) q - (23 : ℕ))) : ℚ)
            * (2 : ℚ) ^ (fl_exp (-126) q - (23 : ℕ)) :=
          mul_le_mul_of_nonneg_right hR1 hu.le
      _ = q := hfl
  have hmin : (2 : ℚ) ^ (-149 : Int) ≤ (2 : ℚ) ^ (fl_exp (-126) q - (23 : ℕ)) := by
    apply zpow_le_zpow_right₀ (by norm_num)
    have := emin_le_fl_exp (-126) q
    push_cast
    omega
  have h149 : (2 : ℚ) ^ (-149 : Int) = 1 / 2 ^ 149 := by
    rw [show (-149 : Int) = -((149 : ℕ) : Int) by norm_num, zpow_neg, zpow_natCast, one_div]
  rw [h149] at hmin
  exact le_trans hmin hge

/-- A `float` below 4095 stays at least one spacing `2^(-12)` below it. -/
theorem float_gap_below_4095 (q : ℚ) (hfl : fl32 q = q) (h1 : q < 4095) :
    1 / 4096 ≤ 4095 - q := by
  rcases lt_or_le q 2048 with hlt | hge
  · linarith
  · have hE : fl_exp (-126) q = 11 :=
      fl_exp_eq (-126) q 11 (by norm_num)
        (by rw [abs_of_pos (by linarith)]; norm_num; linarith)
        (by rw [abs_of_pos (by linarith)]; norm_num; linarith)
    have hq : (round_even (q / (2 : ℚ) ^ ((11 : Int) - (23 : ℕ))) : ℚ)
        * (2 : ℚ) ^ ((11 : Int) - (23 : ℕ)) = q := by
      have := hfl
      rw [fl32, fl, hE] at this
      exact this
    have hu : (2 : ℚ) ^ ((11 : Int) - (23 : ℕ)) = 1 / 4096 := by
      norm_num
    rw [hu] at hq
    have hlt : (round_even (q / (1 / 4096)) : ℚ) < 16773120 := by
      have : (round_even (q / (1 / 4096)) : ℚ) * (1 / 4096) < 4095 := by rw [hq]; exact h1
      linarith
    have hlt' : round_even (q / (1 / 4096)) < 16773120 := by exact_mod_cast hlt
    have hle : (round_even (q / (1 / 4096)) : ℚ) ≤ 16773119 := by
      have : round_even (q / (1 / 4096)) ≤ 16773119 := by omega
      exact_mod_cast this
    linarith

/-- C10, as stated, fails at `media = 2048`: the estimate held by the cycle is
the `float` `5122501/512`, not the exact quotient `10000*2048/2047`. -/
theorem estimate_differs_from_exact_quotient :
    (0 : ℚ) ≤ 2048 ∧ (2048 : ℚ) < ADC_RESOLUTION ∧
    (measurement_cycle 2048).R_x = CFloat.fin (5122501 / 512) ∧
    (measurement_cycle 2048).R_x
      ≠ CFloat.fin ((R_conhecido : ℚ) * 2048 / ((ADC_RESOLUTION : ℚ) - 2048)) := by
  refine ⟨by norm_num, by norm_num [ADC_RESOLUTION], cycle_R_x_at_2048, ?_⟩
  rw [cycle_R_x_at_2048]
  intro h
  have h' := CFloat.fin.inj h
  norm_num [R_conhecido, ADC_RESOLUTION] at h'

/-- C10 amended: for a `float` reading with `0 ≤ media < ADC_RESOLUTION` the
estimate is finite and is the `float` quotient of the `float` product
`R_conhecido * media` by the `float` difference `ADC_RESOLUTION - media` (three
roundings, not the exact quotient); it is not negative, and it is zero exactly
when `media = 0`. -/
theorem estimate_is_float_quotient (media : ℚ) (hfl : fl32 media = media)
    (h0 : 0 ≤ media) (h1 : media < ADC_RESOLUTION) :
    (measurement_cycle media).R_x
      = CFloat.fin (fl32 (fl32 ((R_conhecido : ℚ) * media)
          / fl32 ((ADC_RESOLUTION : ℚ) - media))) ∧
    0 ≤ fl32 (fl32 ((R_conhecido : ℚ) * media) / fl32 ((ADC_RESOLUTION : ℚ) - media)) ∧
    (fl32 (fl32 ((R_conhecido : ℚ) * media) / fl32 ((ADC_RESOLUTION : ℚ) - media)) = 0
      ↔ media = 0) := by
  have hR : (R_conhecido : ℚ) = 10000 := by norm_num [R_conhecido]
  have hA : (ADC_RESOLUTION : ℚ) = 4095 := by norm_num [ADC_RESOLUTION]
  rw [hR, hA]
  rw [hA] at h1
  have hgap := float_gap_below_4095 media hfl h1
  have hd : 1 / 4096 ≤ fl32 (4095 - media) := by
    have := fl32_mono hgap
    rwa [fl32_dyadic (1 / 4096) 1 12 (by norm_num) (by norm_num) (by norm_num)] at this
  have hd_le : fl32 (4095 - media) ≤ 4095 := by
    have := fl32_mono (show 4095 - media ≤ 4095 by linarith)
    rwa [fl32_scaled 4095 4095 0 (by norm_num) (by norm_num)] at this
  have hdpos : 0 < fl32 (4095 - media) := by linarith
  have ha0 : 0 ≤ fl32 (10000 * media) := fl32_nonneg (by positivity)
  have ha_le : fl32 (10000 * media) ≤ 40950000 := by
    have := fl32_mono (show 10000 * media ≤ 40950000 by linarith)
    rwa [fl32_scaled 40950000 2559375 4 (by norm_num) (by norm_num)] at this
  have hq0 : 0 ≤ fl32 (10000 * media) / fl32 (4095 - media) := div_nonneg ha0 hdpos.le
  have hqle : |fl32 (10000 * media) / fl32 (4095 - media)| ≤ 2 ^ 40 := by
    rw [abs_of_nonneg hq0, div_le_iff₀ hdpos]
    have : (2 : ℚ) ^ 40 * (1 / 4096) ≤ 2 ^ 40 * fl32 (4095 - media) :=
      mul_le_mul_of_nonneg_left hd (by positivity)
    norm_num at this ⊢
    linarith
  refine ⟨?_, fl32_nonneg hq0, ?_⟩
  · rw [cycle_R_x media (by rw [abs_of_nonneg h0]; linarith)]
    simp only [CFloat.div, if_neg hdpos.ne']
    exact round32_fin _ hqle
  · constructor
    · intro hz
      by_contra hne
      have hpos : 0 < media := lt_of_le_of_ne h0 (Ne.symm hne)
      have hmin := float_pos_ge media hpos hfl
      have ha : 10000 / 2 ^ 149 ≤ fl32 (10000 * media) := by
        have := fl32_mono (show (10000 : ℚ) / 2 ^ 149 ≤ 10000 * media by
          have : (10000 : ℚ) * (1 / 2 ^ 149) ≤ 10000 * media :=
            mul_le_mul_of_nonneg_left hmin (by norm_num)
          linarith)
        rwa [fl32_dyadic (10000 / 2 ^ 149) 10000 149 (by norm_num) (by norm_num) (by norm_num)] at this
      have hq : (2 : ℚ) / 2 ^ 149 ≤ fl32 (10000 * media) / fl32 (4095 - media) := by
        rw [le_div_iff₀ hdpos]
        have : (2 : ℚ) / 2 ^ 149 * fl32 (4095 - media) ≤ 2 / 2 ^ 149 * 4095 :=
          mul_le_mul_of_nonneg_left hd_le (by positivity)
        have h2 : (2 : ℚ) / 2 ^ 149 * 4095 ≤ 10000 / 2 ^ 149 := by norm_num
        linarith
      have := fl32_mono hq
      rw [fl32_dyadic (2 / 2 ^ 149) 2 149 (by norm_num) (by norm_num) (by norm_num), hz] at this
      have hpos2 : (0 : ℚ) < 2 / 2 ^ 149 := by positivity
      linarith
    · intro hz
      rw [hz, mul_zero, fl32_zero, zero_div, fl32_zero]

/-- C10 amended, witness: the averaged reading 0 gives 0 ohms. -/
theorem estimate_is_float_quotient_witness :
    fl32 0 = 0 ∧ (0 : ℚ) ≤ 0 ∧ (0 : ℚ) < ADC_RESOLUTION ∧
    (measurement_cycle 0).R_x = CFloat.fin 0 := by
  have h := estimate_is_float_quotient 0 fl32_zero le_rfl (by norm_num [ADC_RESOLUTION])
  refine ⟨fl32_zero, le_rfl, by norm_num [ADC_RESOLUTION], ?_⟩
  rw [h.1, h.2.2.2 rfl]

/-! ## Band indices (C8, C9) -/

theorem table_get_of_lt {α : Type} (t : List α) (i : Int) (h0 : 0 ≤ i)
    (h1 : i < (t.length : Int)) : ∃ c, table_get t i = some c := by
  have hlt : i.toNat < t.length := by omega
  exact ⟨t[i.toNat], by simp [table_get, h0, List.getElem?_eq_getElem hlt]⟩

theorem lookups_defined (b : ResistorBands)
    (h1 : 0 ≤ b.digit1 ∧ b.digit1 ≤ 9) (h2 : 0 ≤ b.digit2 ∧ b.digit2 ≤ 9)
    (h3 : 0 ≤ b.multiplier ∧ b.multiplier ≤ 9) :
    (display_resistor_bands b).isSome = true ∧ (show_bands_on_leds b).isSome = true := by
  have hn : (color_names.length : Int) = 12 := rfl
  have hc : (resistor_colors.length : Int) = 12 := rfl
  obtain ⟨a1, ha1⟩ := table_get_of_lt color_names b.digit1 h1.1 (by omega)
  obtain ⟨a2, ha2⟩ := table_get_of_lt color_names b.digit2 h2.1 (by omega)
  obtain ⟨a3, ha3⟩ := table_get_of_lt color_names b.multiplier h3.1 (by omega)
  obtain ⟨c1, hc1⟩ := table_get_of_lt resistor_colors b.digit1 h1.1 (by omega)
  obtain ⟨c2, hc2⟩ := table_get_of_lt resistor_colors b.digit2 h2.1 (by omega)
  obtain ⟨c3, hc3⟩ := table_get_of_lt resistor_colors b.multiplier h3.1 (by omega)
  constructor
  · simp [display_resistor_bands, ha1, ha2, ha3]
  · simp [show_bands_on_leds, hc1, hc2, hc3]

/-- C8: for `0 ≤ value ≤ INT_MAX` the bands are defined, the two digits and the
multiplier lie in `[0, 9]`, every read of `color_names` and `resistor_colors` made
by `display_resistor_bands` and `show_bands_on_leds` is inside the table, and
`digit1 ≥ 1` when `value ≥ 100`. -/
theorem bands_index_range (value : Int) (h0 : 0 ≤ value) (h1 : value ≤ INT_MAX) :
    ∃ b : ResistorBands, determine_bands value = some b ∧
      (0 ≤ b.digit1 ∧ b.digit1 ≤ 9) ∧ (0 ≤ b.digit2 ∧ b.digit2 ≤ 9) ∧
      (0 ≤ b.multiplier ∧ b.multiplier ≤ 9) ∧
      (display_resistor_bands b).isSome = true ∧ (show_bands_on_leds b).isSome = true ∧
      (100 ≤ value → 1 ≤ b.digit1) := by
  have key : ∃ b : ResistorBands, determine_bands value = some b ∧
      (0 ≤ b.digit1 ∧ b.digit1 ≤ 9) ∧ (0 ≤ b.digit2 ∧ b.digit2 ≤ 9) ∧
      (0 ≤ b.multiplier ∧ b.multiplier ≤ 9) ∧ (100 ≤ value → 1 ≤ b.digit1) := by
    by_cases hA : value < 10
    · exact ⟨⟨0, value, 0⟩, by simp [determine_bands, hA], by simp, ⟨h0, by dsimp only; omega⟩,
        by simp, fun h => by omega⟩
    · by_cases hB : value < 100
      · refine ⟨⟨Int.tdiv value 10, Int.tmod value 10, 1⟩, by simp [determine_bands, hA, hB],
          ?_, ?_, by simp, fun h => by omega⟩
        · dsimp only
          rw [Int.tdiv_eq_ediv h0 (by norm_num)]
          constructor <;> omega
        · dsimp only
          rw [Int.tmod_eq_emod h0 (by norm_num)]
          constructor <;> omega
      · obtain ⟨l, -, hl1, hl2⟩ := int_log10_bounds (value : ℚ)
          (by
            have : (100 : ℚ) ≤ (value : ℚ) := by exact_mod_cast not_lt.1 hB
            linarith)
        have hl1' : (10 : Int) ^ l ≤ value := by exact_mod_cast hl1
        have hl2' : value < (10 : Int) ^ (l + 1) := by exact_mod_cast hl2
        have hl : 2 ≤ l := by
          by_contra hlt
          have : (10 : Int) ^ (l + 1) ≤ 10 ^ 2 := pow_le_pow_right₀ (by norm_num) (by omega)
          omega
        have hl9 : l ≤ 9 := by
          by_contra hgt
          have : (10 : Int) ^ 10 ≤ 10 ^ l := pow_le_pow_right₀ (by norm_num) (by omega)
          simp only [INT_MAX] at h1
          omega
        obtain ⟨hq1, hq2⟩ := two_digit_quotient value l (by omega) hl1' hl2'
        refine ⟨_, determine_bands_of_decade value l hl hl1' hl2' h1, ?_, ?_, ?_, fun _ => ?_⟩
        · dsimp only
          constructor <;> omega
        · dsimp only
          constructor <;> omega
        · dsimp only
          constructor <;> omega
        · dsimp only
          omega
  obtain ⟨b, hb, d1, d2, d3, d4⟩ := key
  obtain ⟨hd, hs⟩ := lookups_defined b d1 d2 d3
  exact ⟨b, hb, d1, d2, d3, hd, hs, d4⟩

/-- C8 witness: the nominal value 4700. -/
theorem bands_index_range_witness :
    (0 : Int) ≤ 4700 ∧ (4700 : Int) ≤ INT_MAX ∧
    ∃ b : ResistorBands, determine_bands 4700 = some b ∧
      (0 ≤ b.digit1 ∧ b.digit1 ≤ 9) ∧ (0 ≤ b.digit2 ∧ b.digit2 ≤ 9) ∧
      (0 ≤ b.multiplier ∧ b.multiplier ≤ 9) ∧
      (display_resistor_bands b).isSome = true ∧ (show_bands_on_leds b).isSome = true ∧
      ((100 : Int) ≤ 4700 → 1 ≤ b.digit1) :=
  ⟨by decide, by decide, bands_index_range 4700 (by decide) (by decide)⟩

/-- C9: the value 47 takes the branch `10 ≤ value < 100`; its bands are
`(4, 7, 1)`, which expand to `470`, not to `47`. -/
theorem determine_bands_of_47 :
    determine_bands 47 = some ⟨4, 7, 1⟩ ∧
    ((4 : Int) * 10 + 7) * 10 ^ (1 : Int).toNat = 470 ∧ (470 : Int) ≠ 47 := by
  refine ⟨?_, by norm_num, by norm_num⟩
  have hd : Int.tdiv 47 10 = 4 := by decide
  have hm : Int.tmod 47 10 = 7 := by decide
  simp [determine_bands, hd, hm]

end Ohmimetro
